import Mathlib

/-!
Verification of the distributor read path of `freshdesk/cortex-downsample`
(`pkg/distributor/query.go`): replica selection, fan-out, streaming and
non-streaming merge engines, exemplar merging, and the per-query limit
checks. Go code is shallowly embedded: slices become lists, 64-bit floats
become their bit patterns together with Go's `==` semantics (NaN is not
equal to itself, positive and negative zero are equal), maps become
association lists, and the concurrent aggregator becomes an explicit
labelled transition system.
-/

namespace CortexDistributor

/-! ## Basic data model -/

/-- A Go `float64`, represented by its 64-bit pattern. Only Go's equality
operator on floats is needed by the code under verification (in
`sameSamples` and in exemplar comparison); no arithmetic is performed. -/
structure GoFloat where
  bits : Nat
deriving DecidableEq, Repr

/-- IEEE-754: NaN iff the exponent field is all ones and the mantissa is
nonzero. -/
def GoFloat.isNaN (x : GoFloat) : Bool :=
  (x.bits / 2 ^ 52) % 2 ^ 11 == 0x7ff && x.bits % 2 ^ 52 != 0

/-- IEEE-754: a zero (of either sign) iff all bits besides the sign bit are
zero. -/
def GoFloat.isZero (x : GoFloat) : Bool :=
  x.bits % 2 ^ 63 == 0

/-- Go's `==` on `float64`: false whenever either side is NaN, true for
`+0 == -0`, otherwise bit equality. -/
def goFloatEq (x y : GoFloat) : Bool :=
  !x.isNaN && !y.isNaN && (x.bits == y.bits || (x.isZero && y.isZero))

/-- `cortexpb.LabelAdapter`: one label name/value pair. -/
structure LabelAdapter where
  name : String
  value : String
deriving DecidableEq, Repr

/-- A label set as carried on the wire: an ordered list of pairs. -/
abbrev Labels := List LabelAdapter

/-- `cortexpb.Sample`: a timestamp in milliseconds and a float64 value. -/
structure Sample where
  timestampMs : Int
  value : GoFloat
deriving DecidableEq, Repr

/-- `cortexpb.Exemplar`: labels, value and timestamp. -/
structure Exemplar where
  labels : Labels
  value : GoFloat
  timestampMs : Int
deriving DecidableEq, Repr

/-! ## Sorted merge by timestamp

`mergeSamples` (query.go lines 426-450) and `mergeExemplarSets` (lines
210-230) are textually the same two-pointer loop over the `TimestampMs`
field, so the loop is embedded once, generically in the element type and
its timestamp projection, and instantiated for each. On equal timestamps
the loop emits the left element and advances both sides. -/

def mergeByTimestampMs {α : Type} (ts : α → Int) : List α → List α → List α
  | [], b => b
  | x :: xs, [] => x :: xs
  | x :: xs, y :: ys =>
    if ts x < ts y then
      x :: mergeByTimestampMs ts xs (y :: ys)
    else if ts x > ts y then
      y :: mergeByTimestampMs ts (x :: xs) ys
    else
      x :: mergeByTimestampMs ts xs ys
termination_by a b => a.length + b.length

section MergeLemmas

variable {α : Type} (ts : α → Int)

theorem mergeByTimestampMs_nil_left (b : List α) :
    mergeByTimestampMs ts [] b = b := by
  cases b <;> rw [mergeByTimestampMs]

theorem mergeByTimestampMs_nil_right (a : List α) :
    mergeByTimestampMs ts a [] = a := by
  cases a <;> rw [mergeByTimestampMs]

theorem mergeByTimestampMs_cons_cons (x y : α) (xs ys : List α) :
    mergeByTimestampMs ts (x :: xs) (y :: ys) =
      if ts x < ts y then x :: mergeByTimestampMs ts xs (y :: ys)
      else if ts x > ts y then y :: mergeByTimestampMs ts (x :: xs) ys
      else x :: mergeByTimestampMs ts xs ys := by
  rw [mergeByTimestampMs]

/-- Every element of the merge comes from one of the inputs. -/
theorem mem_of_mem_mergeByTimestampMs :
    ∀ (a b : List α) (s : α), s ∈ mergeByTimestampMs ts a b → s ∈ a ∨ s ∈ b
  | [], b, s => by
    rw [mergeByTimestampMs_nil_left]; exact Or.inr
  | x :: xs, [], s => by
    rw [mergeByTimestampMs_nil_right]; exact Or.inl
  | x :: xs, y :: ys, s => by
    rw [mergeByTimestampMs_cons_cons]
    split
    · intro h
      rcases List.mem_cons.mp h with h | h
      · exact Or.inl (h ▸ List.mem_cons_self x xs)
      · rcases mem_of_mem_mergeByTimestampMs xs (y :: ys) s h with h | h
        · exact Or.inl (List.mem_cons_of_mem x h)
        · exact Or.inr h
    split
    · intro h
      rcases List.mem_cons.mp h with h | h
      · exact Or.inr (h ▸ List.mem_cons_self y ys)
      · rcases mem_of_mem_mergeByTimestampMs (x :: xs) ys s h with h | h
        · exact Or.inl h
        · exact Or.inr (List.mem_cons_of_mem y h)
    · intro h
      rcases List.mem_cons.mp h with h | h
      · exact Or.inl (h ▸ List.mem_cons_self x xs)
      · rcases mem_of_mem_mergeByTimestampMs xs ys s h with h | h
        · exact Or.inl (List.mem_cons_of_mem x h)
        · exact Or.inr (List.mem_cons_of_mem y h)
termination_by a b => a.length + b.length

/-- The timestamps of the merge are exactly the union of the inputs'
timestamps (no sortedness needed). -/
theorem ts_mem_mergeByTimestampMs :
    ∀ (a b : List α) (t : Int),
      t ∈ (mergeByTimestampMs ts a b).map ts ↔ t ∈ a.map ts ∨ t ∈ b.map ts
  | [], b, t => by
    rw [mergeByTimestampMs_nil_left]
    simp
  | x :: xs, [], t => by
    rw [mergeByTimestampMs_nil_right]
    simp
  | x :: xs, y :: ys, t => by
    rw [mergeByTimestampMs_cons_cons]
    split
    · simp only [List.map_cons, List.mem_cons,
        ts_mem_mergeByTimestampMs xs (y :: ys) t]
      tauto
    split
    · simp only [List.map_cons, List.mem_cons,
        ts_mem_mergeByTimestampMs (x :: xs) ys t]
      tauto
    · rename_i hlt hgt
      have hxy : ts x = ts y := le_antisymm (not_lt.mp hgt) (not_lt.mp hlt)
      simp only [List.map_cons, List.mem_cons, ts_mem_mergeByTimestampMs xs ys t]
      constructor
      · rintro (h | h | h)
        · exact Or.inl (Or.inl h)
        · exact Or.inl (Or.inr h)
        · exact Or.inr (Or.inr h)
      · rintro ((h | h) | (h | h))
        · exact Or.inl h
        · exact Or.inr (Or.inl h)
        · exact Or.inl (hxy ▸ h)
        · exact Or.inr (Or.inr h)
termination_by a b => a.length + b.length

/-- Strict sortedness by timestamp is preserved by the merge: the output is
ascending with no two equal timestamps. -/
theorem pairwise_mergeByTimestampMs :
    ∀ (a b : List α), a.Pairwise (fun u v => ts u < ts v) →
      b.Pairwise (fun u v => ts u < ts v) →
      (mergeByTimestampMs ts a b).Pairwise (fun u v => ts u < ts v)
  | [], b, _, hb => by rw [mergeByTimestampMs_nil_left]; exact hb
  | x :: xs, [], ha, _ => by rw [mergeByTimestampMs_nil_right]; exact ha
  | x :: xs, y :: ys, ha, hb => by
    rw [List.pairwise_cons] at ha hb
    rw [mergeByTimestampMs_cons_cons]
    split
    · rename_i hlt
      rw [List.pairwise_cons]
      refine ⟨?_, pairwise_mergeByTimestampMs xs (y :: ys) ha.2
        (List.pairwise_cons.mpr hb)⟩
      intro u hu
      have := (ts_mem_mergeByTimestampMs ts xs (y :: ys) (ts u)).mp
        (List.mem_map_of_mem ts hu)
      rcases this with h | h
      · obtain ⟨v, hv, hvts⟩ := List.mem_map.mp h
        exact hvts ▸ ha.1 v hv
      · obtain ⟨v, hv, hvts⟩ := List.mem_map.mp h
        rcases List.mem_cons.mp hv with rfl | hv
        · exact hvts ▸ hlt
        · exact hvts ▸ lt_trans hlt (hb.1 v hv)
    split
    · rename_i hlt hgt
      rw [List.pairwise_cons]
      refine ⟨?_, pairwise_mergeByTimestampMs (x :: xs)
        ys (List.pairwise_cons.mpr ha) hb.2⟩
      intro u hu
      have := (ts_mem_mergeByTimestampMs ts (x :: xs) ys (ts u)).mp
        (List.mem_map_of_mem ts hu)
      rcases this with h | h
      · obtain ⟨v, hv, hvts⟩ := List.mem_map.mp h
        rcases List.mem_cons.mp hv with rfl | hv
        · exact hvts ▸ hgt
        · exact hvts ▸ lt_trans hgt (ha.1 v hv)
      · obtain ⟨v, hv, hvts⟩ := List.mem_map.mp h
        exact hvts ▸ hb.1 v hv
    · rename_i hlt hgt
      have hxy : ts x = ts y := le_antisymm (not_lt.mp hgt) (not_lt.mp hlt)
      rw [List.pairwise_cons]
      refine ⟨?_, pairwise_mergeByTimestampMs xs ys ha.2 hb.2⟩
      intro u hu
      have := (ts_mem_mergeByTimestampMs ts xs ys (ts u)).mp
        (List.mem_map_of_mem ts hu)
      rcases this with h | h
      · obtain ⟨v, hv, hvts⟩ := List.mem_map.mp h
        exact hvts ▸ ha.1 v hv
      · obtain ⟨v, hv, hvts⟩ := List.mem_map.mp h
        exact hvts ▸ hxy ▸ hb.1 v hv
termination_by a b => a.length + b.length

/-- Left-wins rule: an element of the merge whose timestamp occurs in the
left input is itself an element of the left input. -/
theorem left_wins_mergeByTimestampMs :
    ∀ (a b : List α), a.Pairwise (fun u v => ts u < ts v) →
      b.Pairwise (fun u v => ts u < ts v) →
      ∀ s ∈ mergeByTimestampMs ts a b, ts s ∈ a.map ts → s ∈ a
  | [], b, _, _, s => by simp
  | x :: xs, [], _, _, s => by rw [mergeByTimestampMs_nil_right]; exact fun h _ => h
  | x :: xs, y :: ys, ha, hb, s => by
    rw [List.pairwise_cons] at ha hb
    rw [mergeByTimestampMs_cons_cons]
    split
    · rename_i hlt
      intro hs hts
      rcases List.mem_cons.mp hs with rfl | hs
      · exact List.mem_cons_self _ _
      · -- s is in the recursive merge of xs and y :: ys
        rcases List.mem_cons.mp (List.map_cons ts x xs ▸ hts) with hex | hts'
        · -- ts s = ts x is impossible: everything in xs and in y :: ys is > ts x
          exfalso
          have := (ts_mem_mergeByTimestampMs ts xs (y :: ys) (ts s)).mp
            (List.mem_map_of_mem ts hs)
          rcases this with h | h
          · obtain ⟨v, hv, hvts⟩ := List.mem_map.mp h
            have := ha.1 v hv
            omega
          · obtain ⟨v, hv, hvts⟩ := List.mem_map.mp h
            rcases List.mem_cons.mp hv with rfl | hv
            · omega
            · have := hb.1 v hv
              omega
        · exact List.mem_cons_of_mem x
            (left_wins_mergeByTimestampMs xs (y :: ys) ha.2
              (List.pairwise_cons.mpr hb) s hs hts')
    split
    · rename_i hlt hgt
      intro hs hts
      rcases List.mem_cons.mp hs with rfl | hs
      · -- s = y, but ts y < ts x and ts y < everything in ys: ts y cannot be
        -- a timestamp of x :: xs unless it equals one, contradiction below
        exfalso
        rcases List.mem_cons.mp (List.map_cons ts x xs ▸ hts) with hex | hts'
        · omega
        · obtain ⟨v, hv, hvts⟩ := List.mem_map.mp hts'
          have := ha.1 v hv
          omega
      · exact left_wins_mergeByTimestampMs (x :: xs) ys
          (List.pairwise_cons.mpr ha) hb.2 s hs hts
    · rename_i hlt hgt
      have hxy : ts x = ts y := le_antisymm (not_lt.mp hgt) (not_lt.mp hlt)
      intro hs hts
      rcases List.mem_cons.mp hs with rfl | hs
      · exact List.mem_cons_self _ _
      · rcases List.mem_cons.mp (List.map_cons ts x xs ▸ hts) with hex | hts'
        · exfalso
          have := (ts_mem_mergeByTimestampMs ts xs ys (ts s)).mp
            (List.mem_map_of_mem ts hs)
          rcases this with h | h
          · obtain ⟨v, hv, hvts⟩ := List.mem_map.mp h
            have := ha.1 v hv
            omega
          · obtain ⟨v, hv, hvts⟩ := List.mem_map.mp h
            have := hb.1 v hv
            omega
        · exact List.mem_cons_of_mem x
            (left_wins_mergeByTimestampMs xs ys ha.2 hb.2 s hs hts')
termination_by a b => a.length + b.length

/-- Merging two lists with pointwise equal timestamps returns the left list
unchanged (each step takes the equal-timestamps branch). -/
theorem mergeByTimestampMs_eq_left :
    ∀ (a b : List α), a.map ts = b.map ts → mergeByTimestampMs ts a b = a
  | [], b, h => by
    have : b = [] := by
      cases b
      · rfl
      · simp at h
    rw [this, mergeByTimestampMs_nil_right]
  | x :: xs, [], h => by simp at h
  | x :: xs, y :: ys, h => by
    simp only [List.map_cons, List.cons.injEq] at h
    rw [mergeByTimestampMs_cons_cons]
    rw [if_neg (by omega), if_neg (by omega),
      mergeByTimestampMs_eq_left xs ys h.2]

/-- In a strictly sorted list, an element is determined by its timestamp. -/
theorem eq_of_ts_eq_of_pairwise {l : List α}
    (hl : l.Pairwise (fun u v => ts u < ts v)) :
    ∀ s1 ∈ l, ∀ s2 ∈ l, ts s1 = ts s2 → s1 = s2 := by
  induction l with
  | nil => intro s1 h; simp at h
  | cons x xs ih =>
    rw [List.pairwise_cons] at hl
    intro s1 h1 s2 h2 hts
    rcases List.mem_cons.mp h1 with h1 | h1 <;>
      rcases List.mem_cons.mp h2 with h2 | h2
    · rw [h1, h2]
    · exfalso
      have := hl.1 s2 h2
      rw [h1] at hts
      omega
    · exfalso
      have := hl.1 s1 h1
      rw [h2] at hts
      omega
    · exact ih hl.2 s1 h1 s2 h2 hts

end MergeLemmas

/-! ## `sameSamples` and `mergeSamples` (query.go lines 425-463) -/

/-- Go's `!=` on two `cortexpb.Sample` structs compares all fields with Go
equality; this is its negation (`==`): integer timestamp equality and Go
float equality of the values. -/
def goSampleEq (x y : Sample) : Bool :=
  x.timestampMs == y.timestampMs && goFloatEq x.value y.value

/-- The index loop of `sameSamples` (lines 457-461): element-wise Go
equality of the two slices, assuming equal lengths. -/
def sameSamplesLoop : List Sample → List Sample → Bool
  | [], [] => true
  | x :: xs, y :: ys => goSampleEq x y && sameSamplesLoop xs ys
  | _, _ => false

/-- `sameSamples` (lines 452-463): false on unequal lengths, otherwise
element-wise Go equality. -/
def sameSamples (a b : List Sample) : Bool :=
  if a.length != b.length then false else sameSamplesLoop a b

/-- `mergeSamples` (lines 426-450): fast path returning `a` when the two
slices are element-wise Go-equal, otherwise the sorted merge that dedupes
by timestamp, keeping the left sample on ties. -/
def mergeSamples (a b : List Sample) : List Sample :=
  if sameSamples a b then a else mergeByTimestampMs Sample.timestampMs a b

/-- `mergeExemplarSets` (lines 210-230): the same sorted merge loop on the
exemplars' `TimestampMs` field; no fast path. -/
def mergeExemplarSets (a b : List Exemplar) : List Exemplar :=
  mergeByTimestampMs Exemplar.timestampMs a b

theorem map_ts_eq_of_sameSamplesLoop :
    ∀ a b : List Sample, sameSamplesLoop a b = true →
      a.map Sample.timestampMs = b.map Sample.timestampMs
  | [], [], _ => rfl
  | [], _ :: _, h => by simp [sameSamplesLoop] at h
  | _ :: _, [], h => by simp [sameSamplesLoop] at h
  | x :: xs, y :: ys, h => by
    simp only [sameSamplesLoop, Bool.and_eq_true] at h
    have hts : x.timestampMs = y.timestampMs := by
      have := h.1
      simp only [goSampleEq, Bool.and_eq_true, beq_iff_eq] at this
      exact this.1
    simp only [List.map_cons, hts,
      map_ts_eq_of_sameSamplesLoop xs ys h.2]

/-- The `sameSamples` fast path changes nothing: `mergeSamples` always
agrees with the plain sorted merge. -/
theorem mergeSamples_eq_mergeByTimestampMs (a b : List Sample) :
    mergeSamples a b = mergeByTimestampMs Sample.timestampMs a b := by
  unfold mergeSamples
  cases h : sameSamples a b with
  | false => simp [h]
  | true =>
    have hloop : sameSamplesLoop a b = true := by
      unfold sameSamples at h
      split at h
      · exact absurd h (by simp)
      · exact h
    simp only [if_pos rfl]
    exact (mergeByTimestampMs_eq_left _ a b
      (map_ts_eq_of_sameSamplesLoop a b hloop)).symm

/-- C1: for sorted duplicate-free inputs `a`, `b`, `mergeSamples a b` is
strictly ascending by timestamp (hence free of duplicate timestamps), its
timestamp set is the union of the inputs' timestamp sets, on a timestamp
present in both inputs exactly one sample is emitted and it is the left
argument's sample, and `mergeSamples a a = a`. -/
theorem mergeSamples_spec (a b : List Sample)
    (ha : a.Pairwise (fun u v => u.timestampMs < v.timestampMs))
    (hb : b.Pairwise (fun u v => u.timestampMs < v.timestampMs)) :
    (mergeSamples a b).Pairwise (fun u v => u.timestampMs < v.timestampMs)
    ∧ (∀ t : Int, t ∈ (mergeSamples a b).map Sample.timestampMs ↔
        t ∈ a.map Sample.timestampMs ∨ t ∈ b.map Sample.timestampMs)
    ∧ (∀ t : Int, t ∈ a.map Sample.timestampMs →
        t ∈ b.map Sample.timestampMs →
        ∃ s, s ∈ mergeSamples a b ∧ s.timestampMs = t ∧ s ∈ a ∧
          ∀ s2 ∈ mergeSamples a b, s2.timestampMs = t → s2 = s)
    ∧ mergeSamples a a = a := by
  rw [mergeSamples_eq_mergeByTimestampMs, mergeSamples_eq_mergeByTimestampMs]
  refine ⟨pairwise_mergeByTimestampMs _ a b ha hb,
    fun t => ts_mem_mergeByTimestampMs _ a b t, ?_, ?_⟩
  · intro t hta htb
    obtain ⟨s, hs, hsts⟩ := List.mem_map.mp
      ((ts_mem_mergeByTimestampMs Sample.timestampMs a b t).mpr (Or.inl hta))
    refine ⟨s, hs, hsts, ?_, ?_⟩
    · exact left_wins_mergeByTimestampMs _ a b ha hb s hs (hsts ▸ hta)
    · intro s2 hs2 hs2ts
      exact eq_of_ts_eq_of_pairwise _
        (pairwise_mergeByTimestampMs _ a b ha hb) s2 hs2 s hs
        (by rw [hs2ts, hsts])
  · exact mergeByTimestampMs_eq_left _ a a rfl

/-- Closed witness for C1 at concrete inputs. -/
theorem mergeSamples_spec_witness :
    (mergeSamples [⟨1, ⟨10⟩⟩, ⟨3, ⟨11⟩⟩] [⟨2, ⟨12⟩⟩, ⟨3, ⟨13⟩⟩]).Pairwise
      (fun u v => u.timestampMs < v.timestampMs)
    ∧ (∀ t : Int,
        t ∈ (mergeSamples [⟨1, ⟨10⟩⟩, ⟨3, ⟨11⟩⟩]
          [⟨2, ⟨12⟩⟩, ⟨3, ⟨13⟩⟩]).map Sample.timestampMs ↔
        t ∈ [Sample.mk 1 ⟨10⟩, ⟨3, ⟨11⟩⟩].map Sample.timestampMs ∨
        t ∈ [Sample.mk 2 ⟨12⟩, ⟨3, ⟨13⟩⟩].map Sample.timestampMs)
    ∧ (∀ t : Int,
        t ∈ [Sample.mk 1 ⟨10⟩, ⟨3, ⟨11⟩⟩].map Sample.timestampMs →
        t ∈ [Sample.mk 2 ⟨12⟩, ⟨3, ⟨13⟩⟩].map Sample.timestampMs →
        ∃ s, s ∈ mergeSamples [⟨1, ⟨10⟩⟩, ⟨3, ⟨11⟩⟩] [⟨2, ⟨12⟩⟩, ⟨3, ⟨13⟩⟩] ∧
          s.timestampMs = t ∧ s ∈ [Sample.mk 1 ⟨10⟩, ⟨3, ⟨11⟩⟩] ∧
          ∀ s2 ∈ mergeSamples [⟨1, ⟨10⟩⟩, ⟨3, ⟨11⟩⟩] [⟨2, ⟨12⟩⟩, ⟨3, ⟨13⟩⟩],
            s2.timestampMs = t → s2 = s)
    ∧ mergeSamples [⟨1, ⟨10⟩⟩, ⟨3, ⟨11⟩⟩] [⟨1, ⟨10⟩⟩, ⟨3, ⟨11⟩⟩]
        = [⟨1, ⟨10⟩⟩, ⟨3, ⟨11⟩⟩] :=
  mergeSamples_spec [⟨1, ⟨10⟩⟩, ⟨3, ⟨11⟩⟩] [⟨2, ⟨12⟩⟩, ⟨3, ⟨13⟩⟩]
    (by decide) (by decide)

/-- C4 counterexample: `mergeExemplarSets` compares only the `TimestampMs`
field. Two exemplars with the same timestamp but different label sets and
different values are collapsed to the left one; the right exemplar is
absent from the output, contradicting the claim that both must be present
when any field differs. -/
theorem mergeExemplarSets_drops_on_equal_timestamp :
    mergeExemplarSets [⟨[⟨"traceID", "a"⟩], ⟨100⟩, 5⟩]
        [⟨[⟨"traceID", "b"⟩], ⟨200⟩, 5⟩]
      = [⟨[⟨"traceID", "a"⟩], ⟨100⟩, 5⟩]
    ∧ (⟨[⟨"traceID", "b"⟩], ⟨200⟩, 5⟩ : Exemplar) ∉
        mergeExemplarSets [⟨[⟨"traceID", "a"⟩], ⟨100⟩, 5⟩]
          [⟨[⟨"traceID", "b"⟩], ⟨200⟩, 5⟩]
    ∧ (⟨[⟨"traceID", "a"⟩], ⟨100⟩, 5⟩ : Exemplar) ≠
        ⟨[⟨"traceID", "b"⟩], ⟨200⟩, 5⟩ := by
  have h : mergeExemplarSets [⟨[⟨"traceID", "a"⟩], ⟨100⟩, 5⟩]
      [⟨[⟨"traceID", "b"⟩], ⟨200⟩, 5⟩]
      = [⟨[⟨"traceID", "a"⟩], ⟨100⟩, 5⟩] := by
    unfold mergeExemplarSets
    rw [mergeByTimestampMs_cons_cons]
    norm_num [mergeByTimestampMs_nil_left]
  refine ⟨h, ?_, by decide⟩
  rw [h]
  decide

/-- C4 amended: in `mergeExemplarSets`, two exemplars are deduplicated
exactly when their timestamps are equal, irrespective of the other fields;
on a timestamp present in both sorted inputs exactly one exemplar is
emitted and it is the left argument's exemplar, and the output is strictly
sorted by timestamp with its timestamp set the union of the inputs'. -/
theorem mergeExemplarSets_dedup_by_timestamp (a b : List Exemplar)
    (ha : a.Pairwise (fun u v => u.timestampMs < v.timestampMs))
    (hb : b.Pairwise (fun u v => u.timestampMs < v.timestampMs)) :
    (mergeExemplarSets a b).Pairwise
      (fun u v => u.timestampMs < v.timestampMs)
    ∧ (∀ t : Int, t ∈ (mergeExemplarSets a b).map Exemplar.timestampMs ↔
        t ∈ a.map Exemplar.timestampMs ∨ t ∈ b.map Exemplar.timestampMs)
    ∧ (∀ t : Int, t ∈ a.map Exemplar.timestampMs →
        t ∈ b.map Exemplar.timestampMs →
        ∃ e, e ∈ mergeExemplarSets a b ∧ e.timestampMs = t ∧ e ∈ a ∧
          ∀ e2 ∈ mergeExemplarSets a b, e2.timestampMs = t → e2 = e) := by
  unfold mergeExemplarSets
  refine ⟨pairwise_mergeByTimestampMs _ a b ha hb,
    fun t => ts_mem_mergeByTimestampMs _ a b t, ?_⟩
  intro t hta htb
  obtain ⟨e, he, hets⟩ := List.mem_map.mp
    ((ts_mem_mergeByTimestampMs Exemplar.timestampMs a b t).mpr (Or.inl hta))
  refine ⟨e, he, hets, ?_, ?_⟩
  · exact left_wins_mergeByTimestampMs _ a b ha hb e he (hets ▸ hta)
  · intro e2 he2 he2ts
    exact eq_of_ts_eq_of_pairwise _
      (pairwise_mergeByTimestampMs _ a b ha hb) e2 he2 e he
      (by rw [he2ts, hets])

/-- Closed witness for the amended C4 at concrete inputs. -/
theorem mergeExemplarSets_dedup_by_timestamp_witness :
    (mergeExemplarSets [⟨[⟨"traceID", "a"⟩], ⟨100⟩, 5⟩]
        [⟨[⟨"traceID", "b"⟩], ⟨200⟩, 5⟩, ⟨[⟨"traceID", "c"⟩], ⟨300⟩, 9⟩]).Pairwise
      (fun u v => u.timestampMs < v.timestampMs)
    ∧ (∀ t : Int,
        t ∈ (mergeExemplarSets [⟨[⟨"traceID", "a"⟩], ⟨100⟩, 5⟩]
          [⟨[⟨"traceID", "b"⟩], ⟨200⟩, 5⟩,
           ⟨[⟨"traceID", "c"⟩], ⟨300⟩, 9⟩]).map Exemplar.timestampMs ↔
        t ∈ [Exemplar.mk [⟨"traceID", "a"⟩] ⟨100⟩ 5].map Exemplar.timestampMs ∨
        t ∈ [Exemplar.mk [⟨"traceID", "b"⟩] ⟨200⟩ 5,
             ⟨[⟨"traceID", "c"⟩], ⟨300⟩, 9⟩].map Exemplar.timestampMs)
    ∧ (∀ t : Int,
        t ∈ [Exemplar.mk [⟨"traceID", "a"⟩] ⟨100⟩ 5].map Exemplar.timestampMs →
        t ∈ [Exemplar.mk [⟨"traceID", "b"⟩] ⟨200⟩ 5,
             ⟨[⟨"traceID", "c"⟩], ⟨300⟩, 9⟩].map Exemplar.timestampMs →
        ∃ e, e ∈ mergeExemplarSets [⟨[⟨"traceID", "a"⟩], ⟨100⟩, 5⟩]
            [⟨[⟨"traceID", "b"⟩], ⟨200⟩, 5⟩, ⟨[⟨"traceID", "c"⟩], ⟨300⟩, 9⟩] ∧
          e.timestampMs = t ∧
          e ∈ [Exemplar.mk [⟨"traceID", "a"⟩] ⟨100⟩ 5] ∧
          ∀ e2 ∈ mergeExemplarSets [⟨[⟨"traceID", "a"⟩], ⟨100⟩, 5⟩]
              [⟨[⟨"traceID", "b"⟩], ⟨200⟩, 5⟩, ⟨[⟨"traceID", "c"⟩], ⟨300⟩, 9⟩],
            e2.timestampMs = t → e2 = e) :=
  mergeExemplarSets_dedup_by_timestamp
    [⟨[⟨"traceID", "a"⟩], ⟨100⟩, 5⟩]
    [⟨[⟨"traceID", "b"⟩], ⟨200⟩, 5⟩, ⟨[⟨"traceID", "c"⟩], ⟨300⟩, 9⟩]
    (by decide) (by decide)

/-! ## Association-list model of Go maps

Go maps keyed by series identity appear in `queryIngesters`,
`mergeExemplarQueryResponses` and `queryIngesterStream`. They are embedded
as association lists in insertion order: an update of an existing key
replaces its entry in place, a new key is appended at the end. -/

section AssocMap

variable {κ β : Type} [DecidableEq κ]

def assocGet (k : κ) : List (κ × β) → Option β
  | [] => none
  | p :: rest => if p.1 = k then some p.2 else assocGet k rest

def assocSet (k : κ) (v : β) : List (κ × β) → List (κ × β)
  | [] => [(k, v)]
  | p :: rest => if p.1 = k then (k, v) :: rest else p :: assocSet k v rest

theorem assocGet_eq_none_iff (k : κ) (m : List (κ × β)) :
    assocGet k m = none ↔ k ∉ m.map Prod.fst := by
  induction m with
  | nil => simp [assocGet]
  | cons p rest ih =>
    by_cases h : p.1 = k
    · simp only [assocGet, if_pos h, List.map_cons, List.mem_cons]
      constructor
      · intro hc
        exact absurd hc (by simp)
      · intro hc
        exact absurd (Or.inl h.symm) hc
    · simp only [assocGet, if_neg h, List.map_cons, List.mem_cons]
      rw [ih, not_or]
      constructor
      · intro hnk
        exact ⟨fun hek => h hek.symm, hnk⟩
      · intro hnk
        exact hnk.2

theorem mem_of_assocGet_eq_some (k : κ) (v : β) (m : List (κ × β))
    (h : assocGet k m = some v) : (k, v) ∈ m := by
  induction m with
  | nil => simp [assocGet] at h
  | cons p rest ih =>
    simp only [assocGet] at h
    split at h
    · rename_i hk
      cases h
      exact List.mem_cons.mpr (Or.inl (by rw [← hk]))
    · exact List.mem_cons.mpr (Or.inr (ih h))

theorem assocGet_eq_some_of_mem_keys (k : κ) (m : List (κ × β))
    (h : k ∈ m.map Prod.fst) : ∃ v, assocGet k m = some v := by
  cases hg : assocGet k m with
  | none => exact absurd ((assocGet_eq_none_iff k m).mp hg) (by simp [h])
  | some v => exact ⟨v, rfl⟩

theorem assocSet_map_fst_of_mem (k : κ) (v : β) (m : List (κ × β))
    (h : k ∈ m.map Prod.fst) :
    (assocSet k v m).map Prod.fst = m.map Prod.fst := by
  induction m with
  | nil => simp at h
  | cons p rest ih =>
    simp only [List.map_cons, List.mem_cons] at h
    simp only [assocSet]
    split
    · rename_i hk
      simp [hk]
    · rename_i hk
      have : k ∈ rest.map Prod.fst := by
        rcases h with h | h
        · exact absurd h.symm hk
        · exact h
      simp [ih this]

theorem assocSet_map_fst_of_not_mem (k : κ) (v : β) (m : List (κ × β))
    (h : k ∉ m.map Prod.fst) :
    (assocSet k v m).map Prod.fst = m.map Prod.fst ++ [k] := by
  induction m with
  | nil => simp [assocSet]
  | cons p rest ih =>
    simp only [List.map_cons, List.mem_cons] at h
    push_neg at h
    simp only [assocSet]
    split
    · rename_i hk
      exact absurd hk.symm h.1
    · simp [ih h.2]

theorem mem_keys_assocSet (k k2 : κ) (v : β) (m : List (κ × β)) :
    k ∈ (assocSet k2 v m).map Prod.fst ↔ k ∈ m.map Prod.fst ∨ k = k2 := by
  by_cases h : k2 ∈ m.map Prod.fst
  · rw [assocSet_map_fst_of_mem _ _ _ h]
    constructor
    · exact Or.inl
    · rintro (hk | rfl)
      · exact hk
      · exact h
  · rw [assocSet_map_fst_of_not_mem _ _ _ h]
    simp [List.mem_append]

theorem assocSet_keys_nodup (k : κ) (v : β) (m : List (κ × β))
    (h : (m.map Prod.fst).Nodup) :
    ((assocSet k v m).map Prod.fst).Nodup := by
  by_cases hk : k ∈ m.map Prod.fst
  · rw [assocSet_map_fst_of_mem _ _ _ hk]
    exact h
  · rw [assocSet_map_fst_of_not_mem _ _ _ hk]
    simp [List.nodup_append, h, hk]

theorem mem_assocSet (k : κ) (v : β) (m : List (κ × β)) (p : κ × β)
    (h : p ∈ assocSet k v m) : p = (k, v) ∨ p ∈ m := by
  induction m with
  | nil => simpa [assocSet] using h
  | cons q rest ih =>
    simp only [assocSet] at h
    split at h
    · rcases List.mem_cons.mp h with h | h
      · exact Or.inl h
      · exact Or.inr (List.mem_cons_of_mem q h)
    · rcases List.mem_cons.mp h with h | h
      · exact Or.inr (h ▸ List.mem_cons_self q rest)
      · rcases ih h with h | h
        · exact Or.inl h
        · exact Or.inr (List.mem_cons_of_mem q h)

end AssocMap

/-! ## Canonical label-set encoding

`queryIngesterStream` keys its accumulation maps by
`ingester_client.LabelsToKeyString` and `mergeExemplarQueryResponses` by
`string(labels.Bytes(buf))`; both are the same canonical byte encoding of
the label set. Modelled from the spec: a canonical string encoding of the
label set — a leading separator byte, then name/value pairs joined by a
separator byte that cannot occur in valid UTF-8 label text. -/

def labelsBytes (ls : Labels) : String :=
  ⟨Char.ofNat 0xfe ::
    List.intercalate [Char.ofNat 0xff]
      (ls.map fun l => l.name.data ++ (Char.ofNat 0xff :: l.value.data))⟩

/-- `ingester_client.LabelsToKeyString`: the canonical encoding used as the
series key on the streaming path. -/
def LabelsToKeyString (ls : Labels) : String :=
  labelsBytes ls

/-! ## A verified model of `sort.Strings` (insertion sort) -/

def insertString (s : String) : List String → List String
  | [] => [s]
  | t :: rest => if s ≤ t then s :: t :: rest else t :: insertString s rest

def sortStrings : List String → List String
  | [] => []
  | s :: rest => insertString s (sortStrings rest)

theorem insertString_perm (s : String) (l : List String) :
    List.Perm (insertString s l) (s :: l) := by
  induction l with
  | nil => exact List.Perm.refl _
  | cons t rest ih =>
    simp only [insertString]
    split
    · exact List.Perm.refl _
    · exact (List.Perm.cons t ih).trans (List.Perm.swap s t rest)

theorem sortStrings_perm (l : List String) :
    List.Perm (sortStrings l) l := by
  induction l with
  | nil => exact List.Perm.refl _
  | cons s rest ih =>
    exact (insertString_perm s (sortStrings rest)).trans (List.Perm.cons s ih)

theorem insertString_sorted (s : String) (l : List String)
    (hl : l.Sorted (· ≤ ·)) : (insertString s l).Sorted (· ≤ ·) := by
  induction l with
  | nil => simp [insertString]
  | cons t rest ih =>
    rw [List.sorted_cons] at hl
    simp only [insertString]
    split
    · rename_i hst
      rw [List.sorted_cons]
      refine ⟨?_, List.sorted_cons.mpr hl⟩
      intro u hu
      rcases List.mem_cons.mp hu with rfl | hu
      · exact hst
      · exact le_trans hst (hl.1 u hu)
    · rename_i hst
      rw [List.sorted_cons]
      refine ⟨?_, ih hl.2⟩
      intro u hu
      rcases List.mem_cons.mp ((insertString_perm s rest).mem_iff.mp hu)
        with h | h
      · exact h ▸ le_of_not_le hst
      · exact hl.1 u h

theorem sortStrings_sorted (l : List String) :
    (sortStrings l).Sorted (· ≤ ·) := by
  induction l with
  | nil => simp [sortStrings]
  | cons s rest ih => exact insertString_sorted s (sortStrings rest) ih

/-! ## Exemplar response reconciliation (`mergeExemplarQueryResponses`) -/

/-- `cortexpb.TimeSeries`: labels plus samples and exemplars. -/
structure TimeSeries where
  labels : Labels
  samples : List Sample
  exemplars : List Exemplar
deriving DecidableEq, Repr

/-- The Go zero value of `cortexpb.TimeSeries`. -/
def zeroTimeSeries : TimeSeries :=
  ⟨[], [], []⟩

/-- One step of the fold in `mergeExemplarQueryResponses` (lines 264-275):
on first sight of a series key, store the series verbatim and append the
key; on a later sight, merge the exemplar lists into the accumulated entry
(which keeps its stored labels). -/
def foldExemplarSeries (st : List String × List (String × TimeSeries))
    (t : TimeSeries) : List String × List (String × TimeSeries) :=
  match assocGet (labelsBytes t.labels) st.2 with
  | none =>
      (st.1 ++ [labelsBytes t.labels],
       assocSet (labelsBytes t.labels) t st.2)
  | some e =>
      (st.1,
       assocSet (labelsBytes t.labels)
         { e with exemplars := mergeExemplarSets e.exemplars t.exemplars }
         st.2)

/-- `mergeExemplarQueryResponses` (lines 258-287): fold every replica
response's series into the keyed accumulator, then emit the accumulated
entries in lexicographically sorted key order. -/
def mergeExemplarQueryResponses (results : List (List TimeSeries)) :
    List TimeSeries :=
  let st := results.foldl (fun st r => r.foldl foldExemplarSeries st) ([], [])
  (sortStrings st.1).map fun k => (assocGet k st.2).getD zeroTimeSeries

/-- Accumulator invariant: the key list is the map's key list (in insertion
order), keys are distinct, and every entry's stored labels encode to its
key. -/
def ExemplarAccInv (st : List String × List (String × TimeSeries)) : Prop :=
  st.2.map Prod.fst = st.1 ∧ st.1.Nodup ∧
    ∀ p ∈ st.2, labelsBytes p.2.labels = p.1

theorem exemplarAccInv_step (st : List String × List (String × TimeSeries))
    (t : TimeSeries) (h : ExemplarAccInv st) :
    ExemplarAccInv (foldExemplarSeries st t) := by
  obtain ⟨hkeys, hnd, hlbl⟩ := h
  unfold foldExemplarSeries
  cases hg : assocGet (labelsBytes t.labels) st.2 with
  | none =>
    have hnotin : labelsBytes t.labels ∉ st.2.map Prod.fst :=
      (assocGet_eq_none_iff _ _).mp hg
    refine ⟨?_, ?_, ?_⟩
    · rw [assocSet_map_fst_of_not_mem _ _ _ hnotin, hkeys]
    · have hnotin1 : labelsBytes t.labels ∉ st.1 := hkeys ▸ hnotin
      simp [List.nodup_append, hnd, hnotin1]
    · intro p hp
      rcases mem_assocSet _ _ _ p hp with rfl | hp
      · rfl
      · exact hlbl p hp
  | some e =>
    have hin : labelsBytes t.labels ∈ st.2.map Prod.fst :=
      List.mem_map.mpr ⟨(labelsBytes t.labels, e),
        mem_of_assocGet_eq_some _ _ _ hg, rfl⟩
    refine ⟨?_, hnd, ?_⟩
    · rw [assocSet_map_fst_of_mem _ _ _ hin, hkeys]
    · intro p hp
      rcases mem_assocSet _ _ _ p hp with rfl | hp
      · exact hlbl (labelsBytes t.labels, e)
          (mem_of_assocGet_eq_some _ _ _ hg)
      · exact hlbl p hp

theorem exemplarAccInv_foldl (l : List TimeSeries)
    (st : List String × List (String × TimeSeries)) (h : ExemplarAccInv st) :
    ExemplarAccInv (l.foldl foldExemplarSeries st) := by
  induction l generalizing st with
  | nil => exact h
  | cons t rest ih => exact ih _ (exemplarAccInv_step st t h)

theorem exemplarAccInv_foldl_results (results : List (List TimeSeries))
    (st : List String × List (String × TimeSeries)) (h : ExemplarAccInv st) :
    ExemplarAccInv
      (results.foldl (fun st r => r.foldl foldExemplarSeries st) st) := by
  induction results generalizing st with
  | nil => exact h
  | cons r rest ih => exact ih _ (exemplarAccInv_foldl r st h)

theorem exemplarAccInv_results (results : List (List TimeSeries)) :
    ExemplarAccInv
      (results.foldl (fun st r => r.foldl foldExemplarSeries st) ([], [])) :=
  exemplarAccInv_foldl_results results ([], []) ⟨rfl, List.nodup_nil, by simp⟩

/-- In a list sorted weakly with distinct elements, sortedness is strict. -/
theorem sorted_lt_of_sorted_le_nodup {l : List String}
    (hs : l.Sorted (· ≤ ·)) (hn : l.Nodup) : l.Sorted (· < ·) :=
  (hs.and hn).imp fun h => lt_of_le_of_ne h.1 h.2

/-- C8: the merged exemplar response has at most one entry per distinct
canonical label-set key, and its entries are ordered by the lexicographic
sort of that key (strictly ascending keys give both at once); merging the
same inputs twice trivially produces identical output since the merge is a
pure function. -/
theorem mergeExemplarQueryResponses_spec (results : List (List TimeSeries)) :
    (((mergeExemplarQueryResponses results).map
        fun t => labelsBytes t.labels).Sorted (· < ·))
    ∧ (((mergeExemplarQueryResponses results).map
        fun t => labelsBytes t.labels).Nodup) := by
  obtain ⟨hkeys, hnd, hlbl⟩ := exemplarAccInv_results results
  unfold mergeExemplarQueryResponses
  have hmap :
      ∀ st : List String × List (String × TimeSeries),
        st.2.map Prod.fst = st.1 →
        (∀ p ∈ st.2, labelsBytes p.2.labels = p.1) →
        ((sortStrings st.1).map
            fun k => (assocGet k st.2).getD zeroTimeSeries).map
          (fun t => labelsBytes t.labels) = sortStrings st.1 := by
    intro st hk hl
    rw [List.map_map]
    have : ∀ k ∈ sortStrings st.1,
        labelsBytes ((assocGet k st.2).getD zeroTimeSeries).labels = k := by
      intro k hkmem
      have hk1 : k ∈ st.1 := (sortStrings_perm st.1).mem_iff.mp hkmem
      obtain ⟨v, hv⟩ := assocGet_eq_some_of_mem_keys k st.2 (hk ▸ hk1)
      rw [hv]
      exact hl (k, v) (mem_of_assocGet_eq_some _ _ _ hv)
    calc (sortStrings st.1).map
          ((fun t => labelsBytes t.labels) ∘
            fun k => (assocGet k st.2).getD zeroTimeSeries)
        = (sortStrings st.1).map id := List.map_congr_left this
      _ = sortStrings st.1 := List.map_id _
  rw [hmap _ hkeys hlbl]
  have hsnd : (sortStrings _).Nodup :=
    (sortStrings_perm _).symm.nodup hnd
  exact ⟨sorted_lt_of_sorted_le_nodup (sortStrings_sorted _) hsnd, hsnd⟩

/-! ## Streaming aggregator (`queryIngesterStream`, lines 296-333, 398-414)

The aggregator goroutine loops over a three-way `select` on the two
buffered data channels and the unbuffered stop channel, mutating the two
accumulation maps. It is embedded as a labelled transition system: one
transition per `select` iteration, choosing nondeterministically among the
ready cases (Go's `select` gives no priority among ready cases), plus
producer transitions for the buffered channel pushes and the engine's stop
send. -/

/-- `ingester_client.TimeSeriesChunk`: a series identity plus an ordered
list of opaque chunk payloads. -/
structure TimeSeriesChunk where
  labels : Labels
  chunks : List (List Nat)
deriving DecidableEq, Repr

/-- The Go zero value of `TimeSeriesChunk`. -/
def zeroTimeSeriesChunk : TimeSeriesChunk :=
  ⟨[], []⟩

/-- Folding one chunk-series batch into the chunk-series map (lines
310-316): the looked-up entry (zero value on a miss) gets the incoming
labels and the incoming chunks appended to its chunk list. -/
def foldChunkSeriesBatch (m : List (String × TimeSeriesChunk))
    (cs : List TimeSeriesChunk) : List (String × TimeSeriesChunk) :=
  cs.foldl
    (fun m series =>
      assocSet (LabelsToKeyString series.labels)
        { labels := series.labels,
          chunks := ((assocGet (LabelsToKeyString series.labels) m).getD
            zeroTimeSeriesChunk).chunks ++ series.chunks }
        m)
    m

/-- Folding one time-series batch into the time-series map (lines 318-328):
on a miss (nil samples in the zero value) the incoming samples are stored
verbatim, otherwise they are merged with `mergeSamples`. -/
def foldTimeSeriesBatch (m : List (String × TimeSeries))
    (ts : List TimeSeries) : List (String × TimeSeries) :=
  ts.foldl
    (fun m series =>
      assocSet (LabelsToKeyString series.labels)
        { labels := series.labels,
          samples :=
            if ((assocGet (LabelsToKeyString series.labels) m).getD
                zeroTimeSeries).samples = [] then
              series.samples
            else
              mergeSamples
                ((assocGet (LabelsToKeyString series.labels) m).getD
                  zeroTimeSeries).samples
                series.samples,
          exemplars := ((assocGet (LabelsToKeyString series.labels) m).getD
            zeroTimeSeries).exemplars }
        m)
    m

/-- State of the aggregator and its channels: the batches queued on the two
buffered channels (FIFO), whether a stop send is pending on the unbuffered
`doneCh`, whether the aggregator goroutine has returned, and the two
accumulation maps. -/
structure AggState where
  qCS : List (List TimeSeriesChunk)
  qTS : List (List TimeSeries)
  stopPending : Bool
  returned : Bool
  mCS : List (String × TimeSeriesChunk)
  mTS : List (String × TimeSeries)
deriving DecidableEq, Repr

/-- The initial state: empty channels and maps, no stop pending. -/
def initAggState : AggState :=
  ⟨[], [], false, false, [], []⟩

/-- Events: producer pushes onto the buffered channels (lines 389-394), the
engine's stop send (line 398), and the three `select` cases of the
aggregator loop (lines 307-332). -/
inductive AggEvent
  | pushCS (b : List TimeSeriesChunk)
  | pushTS (b : List TimeSeries)
  | sendStop
  | recvCS
  | recvTS
  | recvStop

/-- One transition; `none` when the event is not enabled (a `select` case
can fire only while the goroutine is still looping and its channel is
ready). -/
def aggStep (s : AggState) : AggEvent → Option AggState
  | .pushCS b => some { s with qCS := s.qCS ++ [b] }
  | .pushTS b => some { s with qTS := s.qTS ++ [b] }
  | .sendStop => some { s with stopPending := true }
  | .recvCS =>
    if s.returned then none
    else
      match s.qCS with
      | [] => none
      | b :: rest =>
        some { s with qCS := rest, mCS := foldChunkSeriesBatch s.mCS b }
  | .recvTS =>
    if s.returned then none
    else
      match s.qTS with
      | [] => none
      | b :: rest =>
        some { s with qTS := rest, mTS := foldTimeSeriesBatch s.mTS b }
  | .recvStop =>
    if s.returned || !s.stopPending then none
    else some { s with stopPending := false, returned := true }

/-- Run a sequence of events from the initial state. -/
def aggRun (evs : List AggEvent) : Option AggState :=
  evs.foldl (fun os e => os.bind fun s => aggStep s e) (some initAggState)

/-- The chunk-series batches pushed in a trace, in order. -/
def pushedCSOf (evs : List AggEvent) : List (List TimeSeriesChunk) :=
  evs.filterMap fun e =>
    match e with
    | .pushCS b => some b
    | _ => none

/-- The time-series batches pushed in a trace, in order. -/
def pushedTSOf (evs : List AggEvent) : List (List TimeSeries) :=
  evs.filterMap fun e =>
    match e with
    | .pushTS b => some b
    | _ => none

theorem aggRun_append (evs : List AggEvent) (e : AggEvent) :
    aggRun (evs ++ [e]) = (aggRun evs).bind fun s => aggStep s e := by
  unfold aggRun
  rw [List.foldl_append]
  rfl

theorem pushedCSOf_append (evs1 evs2 : List AggEvent) :
    pushedCSOf (evs1 ++ evs2) = pushedCSOf evs1 ++ pushedCSOf evs2 := by
  unfold pushedCSOf
  rw [List.filterMap_append]

theorem pushedTSOf_append (evs1 evs2 : List AggEvent) :
    pushedTSOf (evs1 ++ evs2) = pushedTSOf evs1 ++ pushedTSOf evs2 := by
  unfold pushedTSOf
  rw [List.filterMap_append]

/-- The chunk-series list of the response built at lines 405-411: the
chunk-series map enumerated once. -/
def queryStreamRespChunkseries (s : AggState) : List TimeSeriesChunk :=
  s.mCS.map Prod.snd

/-- The time-series list of the response built at lines 405-414: the
time-series map enumerated once. -/
def queryStreamRespTimeseries (s : AggState) : List TimeSeries :=
  s.mTS.map Prod.snd

/-- C2 counterexample: a chunk-series batch is pushed onto the buffered
channel, then the stop signal is sent; the aggregator's `select`, which
chooses without priority among ready cases, consumes the stop signal and
returns while the batch is still queued and not folded into the map. Data
pushed before the stop signal is dropped, refuting the claim. -/
theorem aggregator_stops_with_queued_batch :
    ∃ s : AggState,
      aggRun [.pushCS [⟨[⟨"name", "up"⟩], [[1]]⟩], .sendStop, .recvStop]
        = some s
      ∧ s.returned = true
      ∧ s.qCS = [[⟨[⟨"name", "up"⟩], [[1]]⟩]]
      ∧ s.mCS = [] :=
  ⟨⟨[[⟨[⟨"name", "up"⟩], [[1]]⟩]], [], false, true, [], []⟩,
    rfl, rfl, rfl, rfl⟩

theorem aggregator_conservation (evs : List AggEvent) (s : AggState)
    (h : aggRun evs = some s) :
    (∃ done, pushedCSOf evs = done ++ s.qCS
      ∧ s.mCS = done.foldl foldChunkSeriesBatch [])
    ∧ (∃ done, pushedTSOf evs = done ++ s.qTS
      ∧ s.mTS = done.foldl foldTimeSeriesBatch []) := by
  induction evs using List.reverseRecOn generalizing s with
  | nil =>
    cases h
    exact ⟨⟨[], rfl, rfl⟩, ⟨[], rfl, rfl⟩⟩
  | append_singleton evs e ih =>
    rw [aggRun_append] at h
    cases hr : aggRun evs with
    | none =>
      rw [hr] at h
      cases h
    | some s0 =>
      rw [hr] at h
      simp only [Option.some_bind] at h
      obtain ⟨⟨dcs, hdcs1, hdcs2⟩, ⟨dts, hdts1, hdts2⟩⟩ := ih s0 hr
      cases e with
      | pushCS b =>
        cases h
        rw [pushedCSOf_append, pushedTSOf_append]
        refine ⟨⟨dcs, ?_, hdcs2⟩, ⟨dts, ?_, hdts2⟩⟩
        · show pushedCSOf evs ++ [b] = dcs ++ (s0.qCS ++ [b])
          rw [hdcs1, List.append_assoc]
        · show pushedTSOf evs ++ [] = dts ++ s0.qTS
          rw [hdts1, List.append_nil]
      | pushTS b =>
        cases h
        rw [pushedCSOf_append, pushedTSOf_append]
        refine ⟨⟨dcs, ?_, hdcs2⟩, ⟨dts, ?_, hdts2⟩⟩
        · show pushedCSOf evs ++ [] = dcs ++ s0.qCS
          rw [hdcs1, List.append_nil]
        · show pushedTSOf evs ++ [b] = dts ++ (s0.qTS ++ [b])
          rw [hdts1, List.append_assoc]
      | sendStop =>
        cases h
        rw [pushedCSOf_append, pushedTSOf_append]
        refine ⟨⟨dcs, ?_, hdcs2⟩, ⟨dts, ?_, hdts2⟩⟩
        · show pushedCSOf evs ++ [] = dcs ++ s0.qCS
          rw [hdcs1, List.append_nil]
        · show pushedTSOf evs ++ [] = dts ++ s0.qTS
          rw [hdts1, List.append_nil]
      | recvCS =>
        simp only [aggStep] at h
        split at h
        · cases h
        · split at h
          · cases h
          · rename_i b rest hq
            cases h
            rw [pushedCSOf_append, pushedTSOf_append]
            refine ⟨⟨dcs ++ [b], ?_, ?_⟩, ⟨dts, ?_, hdts2⟩⟩
            · show pushedCSOf evs ++ [] = (dcs ++ [b]) ++ rest
              rw [List.append_nil, hdcs1, hq, List.append_assoc]
              rfl
            · show foldChunkSeriesBatch s0.mCS b
                = (dcs ++ [b]).foldl foldChunkSeriesBatch []
              rw [hdcs2, List.foldl_append]
              rfl
            · show pushedTSOf evs ++ [] = dts ++ s0.qTS
              rw [hdts1, List.append_nil]
      | recvTS =>
        simp only [aggStep] at h
        split at h
        · cases h
        · split at h
          · cases h
          · rename_i b rest hq
            cases h
            rw [pushedCSOf_append, pushedTSOf_append]
            refine ⟨⟨dcs, ?_, hdcs2⟩, ⟨dts ++ [b], ?_, ?_⟩⟩
            · show pushedCSOf evs ++ [] = dcs ++ s0.qCS
              rw [hdcs1, List.append_nil]
            · show pushedTSOf evs ++ [] = (dts ++ [b]) ++ rest
              rw [List.append_nil, hdts1, hq, List.append_assoc]
              rfl
            · show foldTimeSeriesBatch s0.mTS b
                = (dts ++ [b]).foldl foldTimeSeriesBatch []
              rw [hdts2, List.foldl_append]
              rfl
      | recvStop =>
        simp only [aggStep] at h
        split at h
        · cases h
        · cases h
          rw [pushedCSOf_append, pushedTSOf_append]
          refine ⟨⟨dcs, ?_, hdcs2⟩, ⟨dts, ?_, hdts2⟩⟩
          · show pushedCSOf evs ++ [] = dcs ++ s0.qCS
            rw [hdcs1, List.append_nil]
          · show pushedTSOf evs ++ [] = dts ++ s0.qTS
            rw [hdts1, List.append_nil]

/-- C2 amended: the aggregator may consume the stop signal while batches
are still queued (the `select` has no priority among ready cases), so a
batch pushed before the stop signal can be left unprocessed when the
aggregator returns. What does hold: at every reachable state the batches
pushed so far split into the batches already folded into the accumulation
maps, in order, plus the batches still queued; in particular whenever a
channel's queue is empty (e.g. if the aggregator happens to drain before
consuming the stop signal), every batch pushed on that channel has been
folded. -/
theorem aggregator_conservation_spec (evs : List AggEvent) (s : AggState)
    (h : aggRun evs = some s) :
    (∃ done, pushedCSOf evs = done ++ s.qCS
      ∧ s.mCS = done.foldl foldChunkSeriesBatch [])
    ∧ (∃ done, pushedTSOf evs = done ++ s.qTS
      ∧ s.mTS = done.foldl foldTimeSeriesBatch [])
    ∧ (s.qCS = [] → s.mCS = (pushedCSOf evs).foldl foldChunkSeriesBatch [])
    ∧ (s.qTS = [] → s.mTS = (pushedTSOf evs).foldl foldTimeSeriesBatch []) := by
  obtain ⟨⟨dcs, hdcs1, hdcs2⟩, ⟨dts, hdts1, hdts2⟩⟩ :=
    aggregator_conservation evs s h
  refine ⟨⟨dcs, hdcs1, hdcs2⟩, ⟨dts, hdts1, hdts2⟩, ?_, ?_⟩
  · intro hq
    rw [hq, List.append_nil] at hdcs1
    rw [hdcs1]
    exact hdcs2
  · intro hq
    rw [hq, List.append_nil] at hdts1
    rw [hdts1]
    exact hdts2

/-- Closed witness for the amended C2: a batch is pushed, drained, then the
stop signal is sent and consumed. -/
theorem aggregator_conservation_spec_witness :
    (∃ done,
      pushedCSOf [.pushCS [⟨[], [[2]]⟩], .recvCS, .sendStop, .recvStop]
        = done ++ (AggState.mk [] [] false true
            [(LabelsToKeyString [], ⟨[], [[2]]⟩)] []).qCS
      ∧ (AggState.mk [] [] false true
          [(LabelsToKeyString [], ⟨[], [[2]]⟩)] []).mCS
        = done.foldl foldChunkSeriesBatch [])
    ∧ (∃ done,
      pushedTSOf [.pushCS [⟨[], [[2]]⟩], .recvCS, .sendStop, .recvStop]
        = done ++ (AggState.mk [] [] false true
            [(LabelsToKeyString [], ⟨[], [[2]]⟩)] []).qTS
      ∧ (AggState.mk [] [] false true
          [(LabelsToKeyString [], ⟨[], [[2]]⟩)] []).mTS
        = done.foldl foldTimeSeriesBatch [])
    ∧ ((AggState.mk [] [] false true
        [(LabelsToKeyString [], ⟨[], [[2]]⟩)] []).qCS = [] →
      (AggState.mk [] [] false true
          [(LabelsToKeyString [], ⟨[], [[2]]⟩)] []).mCS
        = (pushedCSOf [.pushCS [⟨[], [[2]]⟩], .recvCS, .sendStop,
            .recvStop]).foldl foldChunkSeriesBatch [])
    ∧ ((AggState.mk [] [] false true
        [(LabelsToKeyString [], ⟨[], [[2]]⟩)] []).qTS = [] →
      (AggState.mk [] [] false true
          [(LabelsToKeyString [], ⟨[], [[2]]⟩)] []).mTS
        = (pushedTSOf [.pushCS [⟨[], [[2]]⟩], .recvCS, .sendStop,
            .recvStop]).foldl foldTimeSeriesBatch []) :=
  aggregator_conservation_spec
    [.pushCS [⟨[], [[2]]⟩], .recvCS, .sendStop, .recvStop]
    (AggState.mk [] [] false true
      [(LabelsToKeyString [], ⟨[], [[2]]⟩)] []) rfl

/-- Invariant of a series-keyed accumulation map: keys are distinct and
every entry's stored labels encode to its key. -/
def KeyedMapInv {β : Type} (keyOf : β → String) (m : List (String × β)) : Prop :=
  (m.map Prod.fst).Nodup ∧ ∀ p ∈ m, keyOf p.2 = p.1

theorem keyedMapInv_assocSet {β : Type} (keyOf : β → String) (k : String)
    (v : β) (hk : keyOf v = k) (m : List (String × β))
    (h : KeyedMapInv keyOf m) : KeyedMapInv keyOf (assocSet k v m) := by
  refine ⟨assocSet_keys_nodup _ _ _ h.1, ?_⟩
  intro p hp
  rcases mem_assocSet _ _ _ p hp with rfl | hp
  · exact hk
  · exact h.2 p hp

theorem keyedMapInv_foldChunkSeriesBatch (cs : List TimeSeriesChunk)
    (m : List (String × TimeSeriesChunk))
    (h : KeyedMapInv (fun c => LabelsToKeyString c.labels) m) :
    KeyedMapInv (fun c => LabelsToKeyString c.labels)
      (foldChunkSeriesBatch m cs) := by
  induction cs generalizing m with
  | nil => exact h
  | cons series rest ih =>
    have h1 : KeyedMapInv (fun c => LabelsToKeyString c.labels)
        (assocSet (LabelsToKeyString series.labels)
          { labels := series.labels,
            chunks := ((assocGet (LabelsToKeyString series.labels) m).getD
              zeroTimeSeriesChunk).chunks ++ series.chunks } m) :=
      keyedMapInv_assocSet (fun c => LabelsToKeyString c.labels)
        (LabelsToKeyString series.labels)
        { labels := series.labels,
          chunks := ((assocGet (LabelsToKeyString series.labels) m).getD
            zeroTimeSeriesChunk).chunks ++ series.chunks } rfl m h
    exact ih _ h1

theorem keyedMapInv_foldTimeSeriesBatch (ts : List TimeSeries)
    (m : List (String × TimeSeries))
    (h : KeyedMapInv (fun t => LabelsToKeyString t.labels) m) :
    KeyedMapInv (fun t => LabelsToKeyString t.labels)
      (foldTimeSeriesBatch m ts) := by
  induction ts generalizing m with
  | nil => exact h
  | cons series rest ih =>
    have h1 : KeyedMapInv (fun t => LabelsToKeyString t.labels)
        (assocSet (LabelsToKeyString series.labels)
          { labels := series.labels,
            samples :=
              if ((assocGet (LabelsToKeyString series.labels) m).getD
                  zeroTimeSeries).samples = [] then
                series.samples
              else
                mergeSamples
                  ((assocGet (LabelsToKeyString series.labels) m).getD
                    zeroTimeSeries).samples
                  series.samples,
            exemplars := ((assocGet (LabelsToKeyString series.labels) m).getD
              zeroTimeSeries).exemplars } m) :=
      keyedMapInv_assocSet (fun t => LabelsToKeyString t.labels)
        (LabelsToKeyString series.labels)
        { labels := series.labels,
          samples :=
            if ((assocGet (LabelsToKeyString series.labels) m).getD
                zeroTimeSeries).samples = [] then
              series.samples
            else
              mergeSamples
                ((assocGet (LabelsToKeyString series.labels) m).getD
                  zeroTimeSeries).samples
                series.samples,
          exemplars := ((assocGet (LabelsToKeyString series.labels) m).getD
            zeroTimeSeries).exemplars } rfl m h
    exact ih _ h1

theorem aggRun_keyedMapInv (evs : List AggEvent) (s : AggState)
    (h : aggRun evs = some s) :
    KeyedMapInv (fun c => LabelsToKeyString c.labels) s.mCS
    ∧ KeyedMapInv (fun t => LabelsToKeyString t.labels) s.mTS := by
  induction evs using List.reverseRecOn generalizing s with
  | nil =>
    cases h
    exact ⟨⟨List.nodup_nil, by simp [initAggState]⟩,
      ⟨List.nodup_nil, by simp [initAggState]⟩⟩
  | append_singleton evs e ih =>
    rw [aggRun_append] at h
    cases hr : aggRun evs with
    | none =>
      rw [hr] at h
      cases h
    | some s0 =>
      rw [hr] at h
      simp only [Option.some_bind] at h
      obtain ⟨hcs, hts⟩ := ih s0 hr
      cases e with
      | pushCS b =>
        cases h
        exact ⟨hcs, hts⟩
      | pushTS b =>
        cases h
        exact ⟨hcs, hts⟩
      | sendStop =>
        cases h
        exact ⟨hcs, hts⟩
      | recvCS =>
        simp only [aggStep] at h
        split at h
        · cases h
        · split at h
          · cases h
          · cases h
            exact ⟨keyedMapInv_foldChunkSeriesBatch _ _ hcs, hts⟩
      | recvTS =>
        simp only [aggStep] at h
        split at h
        · cases h
        · split at h
          · cases h
          · cases h
            exact ⟨hcs, keyedMapInv_foldTimeSeriesBatch _ _ hts⟩
      | recvStop =>
        simp only [aggStep] at h
        split at h
        · cases h
        · cases h
          exact ⟨hcs, hts⟩

/-- C10: in any streaming execution that returns a response, each canonical
label-set key appears in at most one entry of the returned chunk-series
list and in at most one entry of the returned time-series list: batches
sharing a label set are folded into a single map entry and each map is
enumerated once. -/
theorem queryIngesterStream_response_unique_keys (evs : List AggEvent)
    (s : AggState) (h : aggRun evs = some s) (_hret : s.returned = true) :
    ((queryStreamRespChunkseries s).map
      fun c => LabelsToKeyString c.labels).Nodup
    ∧ ((queryStreamRespTimeseries s).map
      fun t => LabelsToKeyString t.labels).Nodup := by
  obtain ⟨⟨hcsnd, hcslbl⟩, ⟨htsnd, htslbl⟩⟩ := aggRun_keyedMapInv evs s h
  constructor
  · unfold queryStreamRespChunkseries
    rw [List.map_map]
    have : s.mCS.map ((fun c => LabelsToKeyString c.labels) ∘ Prod.snd)
        = s.mCS.map Prod.fst :=
      List.map_congr_left fun p hp => hcslbl p hp
    rw [this]
    exact hcsnd
  · unfold queryStreamRespTimeseries
    rw [List.map_map]
    have : s.mTS.map ((fun t => LabelsToKeyString t.labels) ∘ Prod.snd)
        = s.mTS.map Prod.fst :=
      List.map_congr_left fun p hp => htslbl p hp
    rw [this]
    exact htsnd

/-- Closed witness for C10: two batches with the same label set from two
replicas, drained, then stop. -/
theorem queryIngesterStream_response_unique_keys_witness :
    ((queryStreamRespChunkseries
        (AggState.mk [] [] false true
          [(LabelsToKeyString [], ⟨[], [[1], [2]]⟩)] [])).map
      fun c => LabelsToKeyString c.labels).Nodup
    ∧ ((queryStreamRespTimeseries
        (AggState.mk [] [] false true
          [(LabelsToKeyString [], ⟨[], [[1], [2]]⟩)] [])).map
      fun t => LabelsToKeyString t.labels).Nodup :=
  queryIngesterStream_response_unique_keys
    [.pushCS [⟨[], [[1]]⟩], .recvCS, .pushCS [⟨[], [[2]]⟩], .recvCS,
      .sendStop, .recvStop]
    (AggState.mk [] [] false true
      [(LabelsToKeyString [], ⟨[], [[1], [2]]⟩)] []) rfl rfl

/-! ## WaitGroup join of `queryIngesterStream` (lines 303-306, 398-400)

The engine calls `wg.Add(2)` (line 304) and starts a single aggregator
goroutine whose only exit path runs one deferred `wg.Done` (line 306);
after the fan-out returns and the stop signal is sent, the engine blocks in
`wg.Wait` (line 399), which returns exactly when the counter reaches
zero. -/

/-- The literal argument of `wg.Add` at line 304. -/
def streamWaitGroupAdd : Nat := 2

/-- The WaitGroup counter as a function of the aggregator state: the
`wg.Add(2)` increment minus the single deferred `wg.Done`, which has run
exactly when the aggregator goroutine has returned. -/
def streamWaitGroupCounter (s : AggState) : Nat :=
  streamWaitGroupAdd - (if s.returned then 1 else 0)

/-- `wg.Wait` (line 399) returns exactly when the counter is zero. -/
def streamWaitCompletes (s : AggState) : Prop :=
  streamWaitGroupCounter s = 0

/-- C3 (code bug): `wg.Add(2)` is matched by at most one `wg.Done` — the
single aggregator goroutine's deferred call — so in every state, also
after the aggregator has consumed the stop signal and returned, the
counter is at least 1 and never 0: `wg.Wait` never returns and
`queryIngesterStream` cannot return its merged response. -/
theorem queryIngesterStream_wait_never_completes (s : AggState) :
    1 ≤ streamWaitGroupCounter s := by
  unfold streamWaitGroupCounter streamWaitGroupAdd
  split <;> simp

/-! ## Failure-counter increments per query path (C9)

The three per-replica callbacks differ in how they count failures: the
non-streaming and exemplar callbacks increment the failure counter on any
error, the streaming callback increments unconditionally when opening the
stream fails but checks `grpcutil.IsGRPCContextCanceled` in the receive
loop. -/

/-- Classification of one per-replica RPC outcome. -/
inductive CallOutcome
  | ok
  | canceled
  | otherError
deriving DecidableEq, Repr

/-- `grpcutil.IsGRPCContextCanceled`, as a predicate on the outcome. -/
def isGRPCContextCanceled : CallOutcome → Bool
  | .canceled => true
  | _ => false

/-- Whether the `queryIngesters` callback (lines 171-176) increments the
replica's failure counter: on every non-nil error, with no cancellation
check. -/
def queryIngestersFailureInc (o : CallOutcome) : Bool :=
  o != .ok

/-- Whether the `queryIngestersExemplars` callback (lines 242-247)
increments the failure counter: on every non-nil error, with no
cancellation check. -/
def queryIngestersExemplarsFailureInc (o : CallOutcome) : Bool :=
  o != .ok

/-- Whether the streaming callback increments the failure counter when the
initial `QueryStream` call fails (lines 343-347): on every non-nil error,
with no cancellation check. -/
def queryIngesterStreamOpenFailureInc (o : CallOutcome) : Bool :=
  o != .ok

/-- Whether the streaming receive loop increments the failure counter for a
`stream.Recv` error (lines 352-362): only for a non-EOF error that is not
a canceled context. -/
def queryIngesterStreamRecvFailureInc (o : CallOutcome) : Bool :=
  o != .ok && !(isGRPCContextCanceled o)

/-- C9 counterexample: a canceled-context error on the non-streaming sample
query path increments the replica failure counter — lines 173-175 have no
cancellation check — contradicting the claim that no query path counts
cancellation as a replica failure. The exemplar path and the streaming
path's stream-open error behave the same way. -/
theorem queryIngesters_counts_canceled_as_failure :
    queryIngestersFailureInc .canceled = true
    ∧ queryIngestersExemplarsFailureInc .canceled = true
    ∧ queryIngesterStreamOpenFailureInc .canceled = true := by
  decide

/-- C9 amended: only the streaming path's receive loop exempts
canceled-context errors from failure counting; the non-streaming sample
query path, the exemplar query path, and the streaming path's initial
stream-open call increment the replica failure counter on every error,
including cancellation. No path counts a success as a failure. -/
theorem cancellation_failure_counting :
    queryIngesterStreamRecvFailureInc .canceled = false
    ∧ queryIngesterStreamRecvFailureInc .otherError = true
    ∧ queryIngestersFailureInc .canceled = true
    ∧ queryIngestersFailureInc .otherError = true
    ∧ queryIngestersExemplarsFailureInc .canceled = true
    ∧ queryIngesterStreamOpenFailureInc .canceled = true
    ∧ queryIngestersFailureInc .ok = false
    ∧ queryIngestersExemplarsFailureInc .ok = false
    ∧ queryIngesterStreamOpenFailureInc .ok = false
    ∧ queryIngesterStreamRecvFailureInc .ok = false := by
  decide

/-! ## Per-message limit checks of the streaming receive loop (C6)

The limiter itself lives outside this repository (`util/limiter`); it is
modelled from the spec: per-query counters for chunks, distinct series,
chunk bytes and data bytes, each add operation failing when its maximum is
exceeded. The order in which `queryIngesterStream` applies the checks to
one received message (lines 364-394) is the code under verification. -/

/-- The identity of the limit whose check failed. -/
inductive LimitErr
  | maxChunksHit
  | maxSeriesHit
  | maxChunkBytesHit
  | maxDataBytesHit
deriving DecidableEq, Repr

/-- Modelled from the spec: the per-query limiter state — four maxima and
the running counters they bound (`AddSeries` tracks distinct series
keys). -/
structure QueryLimiter where
  maxChunksPerQuery : Nat
  maxSeriesPerQuery : Nat
  maxChunkBytesPerQuery : Nat
  maxDataBytesPerQuery : Nat
  chunkCount : Nat
  seriesKeys : List String
  chunkBytesCount : Nat
  dataBytesCount : Nat
deriving DecidableEq, Repr

/-- Modelled from the spec: `AddChunks` — add to the running chunk count
and fail when the maximum is exceeded. -/
def QueryLimiter.addChunks (l : QueryLimiter) (n : Nat) :
    Except LimitErr QueryLimiter :=
  if l.chunkCount + n > l.maxChunksPerQuery then .error .maxChunksHit
  else .ok { l with chunkCount := l.chunkCount + n }

/-- The distinct-series key set after recording one more series. -/
def QueryLimiter.seriesKeysAfterAdd (l : QueryLimiter) (ls : Labels) :
    List String :=
  if LabelsToKeyString ls ∈ l.seriesKeys then l.seriesKeys
  else l.seriesKeys ++ [LabelsToKeyString ls]

/-- Modelled from the spec: `AddSeries` — record the series key and fail
when the number of distinct series exceeds the maximum. -/
def QueryLimiter.addSeries (l : QueryLimiter) (ls : Labels) :
    Except LimitErr QueryLimiter :=
  if (l.seriesKeysAfterAdd ls).length > l.maxSeriesPerQuery then
    .error .maxSeriesHit
  else .ok { l with seriesKeys := l.seriesKeysAfterAdd ls }

/-- Modelled from the spec: `AddChunkBytes`. -/
def QueryLimiter.addChunkBytes (l : QueryLimiter) (n : Nat) :
    Except LimitErr QueryLimiter :=
  if l.chunkBytesCount + n > l.maxChunkBytesPerQuery then
    .error .maxChunkBytesHit
  else .ok { l with chunkBytesCount := l.chunkBytesCount + n }

/-- Modelled from the spec: `AddDataBytes`. -/
def QueryLimiter.addDataBytes (l : QueryLimiter) (n : Nat) :
    Except LimitErr QueryLimiter :=
  if l.dataBytesCount + n > l.maxDataBytesPerQuery then
    .error .maxDataBytesHit
  else .ok { l with dataBytesCount := l.dataBytesCount + n }

/-- One partial streamed response message
(`ingester_client.QueryStreamResponse`): chunk-series, raw time-series, and
its total serialized size (`resp.Size()`, modelled from the spec as an
attribute of the message). -/
structure QueryStreamMsg where
  chunkseries : List TimeSeriesChunk
  timeseries : List TimeSeries
  sizeBytes : Nat
deriving DecidableEq, Repr

/-- `resp.ChunksCount()`: the number of chunks in the message. -/
def QueryStreamMsg.chunksCount (m : QueryStreamMsg) : Nat :=
  (m.chunkseries.map fun c => c.chunks.length).sum

/-- `resp.ChunksSize()`: the total byte size of the chunk payloads. -/
def QueryStreamMsg.chunksSize (m : QueryStreamMsg) : Nat :=
  (m.chunkseries.map fun c => (c.chunks.map List.length).sum).sum

/-- The `for` loops at lines 369-373 and 383-387: apply `AddSeries` to each
series' label set in order, returning the first failure. -/
def addSeriesAll (l : QueryLimiter) : List Labels → Except LimitErr QueryLimiter
  | [] => .ok l
  | ls :: rest =>
    match l.addSeries ls with
    | .error e => .error e
    | .ok l2 => addSeriesAll l2 rest

/-- The limit checks applied to one received message, in source order
(lines 364-387): max chunks on the message's chunk count, then max series
for every chunk-series, then max chunk bytes, then max data bytes, then
max series for every raw time-series. -/
def checkStreamMsg (l : QueryLimiter) (msg : QueryStreamMsg) :
    Except LimitErr QueryLimiter :=
  match l.addChunks msg.chunksCount with
  | .error e => .error e
  | .ok l1 =>
    match addSeriesAll l1 (msg.chunkseries.map TimeSeriesChunk.labels) with
    | .error e => .error e
    | .ok l2 =>
      match l2.addChunkBytes msg.chunksSize with
      | .error e => .error e
      | .ok l3 =>
        match l3.addDataBytes msg.sizeBytes with
        | .error e => .error e
        | .ok l4 => addSeriesAll l4 (msg.timeseries.map TimeSeries.labels)

/-- One iteration of the per-replica receive loop for a received message
(lines 364-394): run the limit checks; on success push the non-empty
batches to the aggregator channels, on failure abort the loop with the
limit error, forwarding nothing. -/
def recvStreamMsg (l : QueryLimiter) (msg : QueryStreamMsg) :
    Except LimitErr (QueryLimiter × List AggEvent) :=
  match checkStreamMsg l msg with
  | .error e => .error e
  | .ok l5 =>
      .ok (l5,
        (if msg.chunkseries.length > 0 then [AggEvent.pushCS msg.chunkseries]
         else []) ++
        (if msg.timeseries.length > 0 then [AggEvent.pushTS msg.timeseries]
         else []))

/-- `AddSeries` can only fail with the series-count reason. -/
theorem addSeries_error_eq (l : QueryLimiter) (ls : Labels) (e : LimitErr)
    (h : l.addSeries ls = .error e) : e = .maxSeriesHit := by
  unfold QueryLimiter.addSeries at h
  split at h
  · cases h
    rfl
  · cases h

/-- `addSeriesAll` can only fail with the series-count reason. -/
theorem addSeriesAll_error_eq (lss : List Labels) (l : QueryLimiter)
    (e : LimitErr) (h : addSeriesAll l lss = .error e) :
    e = .maxSeriesHit := by
  induction lss generalizing l with
  | nil =>
    unfold addSeriesAll at h
    cases h
  | cons ls rest ih =>
    unfold addSeriesAll at h
    cases hs : QueryLimiter.addSeries l ls with
    | error e2 =>
      rw [hs] at h
      cases h
      exact addSeries_error_eq l ls e hs
    | ok l2 =>
      rw [hs] at h
      exact ih l2 h

/-- `AddChunks` can only fail with the chunk-count reason. -/
theorem addChunks_error_eq (l : QueryLimiter) (n : Nat) (e : LimitErr)
    (h : l.addChunks n = .error e) : e = .maxChunksHit := by
  unfold QueryLimiter.addChunks at h
  split at h
  · cases h
    rfl
  · cases h

/-- `AddChunkBytes` can only fail with the chunk-bytes reason. -/
theorem addChunkBytes_error_eq (l : QueryLimiter) (n : Nat) (e : LimitErr)
    (h : l.addChunkBytes n = .error e) : e = .maxChunkBytesHit := by
  unfold QueryLimiter.addChunkBytes at h
  split at h
  · cases h
    rfl
  · cases h

/-- `AddDataBytes` can only fail with the data-bytes reason. -/
theorem addDataBytes_error_eq (l : QueryLimiter) (n : Nat) (e : LimitErr)
    (h : l.addDataBytes n = .error e) : e = .maxDataBytesHit := by
  unfold QueryLimiter.addDataBytes at h
  split at h
  · cases h
    rfl
  · cases h

/-- C6: the limit checks run against a received partial message in source
order — max chunks on the message's chunk count, then the max-series check
for every chunk-series, then max chunk bytes, then max total message
bytes, then the max-series check for every raw time-series. An earlier
failing check decides the outcome and its reason regardless of later
checks (in particular a message that would exceed both the series count
via its chunk-series and the chunk bytes fails with the series-count
reason), and any limit violation aborts the receive-loop iteration with
that limit error, forwarding none of the message's data to the
aggregator. -/
theorem queryIngesterStream_limit_check_order (l : QueryLimiter)
    (msg : QueryStreamMsg) :
    (∀ e, l.addChunks msg.chunksCount = .error e →
      checkStreamMsg l msg = .error e ∧ e = .maxChunksHit)
    ∧ (∀ l1 e, l.addChunks msg.chunksCount = .ok l1 →
        addSeriesAll l1 (msg.chunkseries.map TimeSeriesChunk.labels)
          = .error e →
        checkStreamMsg l msg = .error e ∧ e = .maxSeriesHit)
    ∧ (∀ l1 l2 e, l.addChunks msg.chunksCount = .ok l1 →
        addSeriesAll l1 (msg.chunkseries.map TimeSeriesChunk.labels)
          = .ok l2 →
        l2.addChunkBytes msg.chunksSize = .error e →
        checkStreamMsg l msg = .error e ∧ e = .maxChunkBytesHit)
    ∧ (∀ l1 l2 l3 e, l.addChunks msg.chunksCount = .ok l1 →
        addSeriesAll l1 (msg.chunkseries.map TimeSeriesChunk.labels)
          = .ok l2 →
        l2.addChunkBytes msg.chunksSize = .ok l3 →
        l3.addDataBytes msg.sizeBytes = .error e →
        checkStreamMsg l msg = .error e ∧ e = .maxDataBytesHit)
    ∧ (∀ l1 l2 l3 l4 e, l.addChunks msg.chunksCount = .ok l1 →
        addSeriesAll l1 (msg.chunkseries.map TimeSeriesChunk.labels)
          = .ok l2 →
        l2.addChunkBytes msg.chunksSize = .ok l3 →
        l3.addDataBytes msg.sizeBytes = .ok l4 →
        addSeriesAll l4 (msg.timeseries.map TimeSeries.labels) = .error e →
        checkStreamMsg l msg = .error e ∧ e = .maxSeriesHit)
    ∧ (∀ e, checkStreamMsg l msg = .error e →
        recvStreamMsg l msg = .error e) := by
  refine ⟨?_, ?_, ?_, ?_, ?_, ?_⟩
  · intro e h1
    unfold checkStreamMsg
    rw [h1]
    exact ⟨rfl, addChunks_error_eq l _ e h1⟩
  · intro l1 e h1 h2
    unfold checkStreamMsg
    rw [h1]
    simp only [h2]
    exact ⟨trivial, addSeriesAll_error_eq _ _ _ h2⟩
  · intro l1 l2 e h1 h2 h3
    unfold checkStreamMsg
    rw [h1]
    simp only [h2, h3]
    exact ⟨trivial, addChunkBytes_error_eq _ _ _ h3⟩
  · intro l1 l2 l3 e h1 h2 h3 h4
    unfold checkStreamMsg
    rw [h1]
    simp only [h2, h3, h4]
    exact ⟨trivial, addDataBytes_error_eq _ _ _ h4⟩
  · intro l1 l2 l3 l4 e h1 h2 h3 h4 h5
    unfold checkStreamMsg
    rw [h1]
    simp only [h2, h3, h4, h5]
    exact ⟨trivial, addSeriesAll_error_eq _ _ _ h5⟩
  · intro e h
    unfold recvStreamMsg
    rw [h]

/-- Closed witness for C6: a limiter whose series maximum is 0 and whose
chunk-bytes maximum is 0 rejects a one-chunk-series message with the
series-count reason (although the chunk-bytes check would also fail), and
the receive loop forwards nothing. -/
theorem queryIngesterStream_limit_check_order_witness :
    (checkStreamMsg ⟨10, 0, 0, 10, 0, [], 0, 0⟩
        ⟨[⟨[⟨"a", "b"⟩], [[1, 2, 3]]⟩], [], 5⟩
      = .error .maxSeriesHit)
    ∧ recvStreamMsg ⟨10, 0, 0, 10, 0, [], 0, 0⟩
        ⟨[⟨[⟨"a", "b"⟩], [[1, 2, 3]]⟩], [], 5⟩
      = .error .maxSeriesHit := by
  have h := queryIngesterStream_limit_check_order ⟨10, 0, 0, 10, 0, [], 0, 0⟩
    ⟨[⟨[⟨"a", "b"⟩], [[1, 2, 3]]⟩], [], 5⟩
  have h1 : (QueryLimiter.mk 10 0 0 10 0 [] 0 0).addChunks
      (QueryStreamMsg.chunksCount ⟨[⟨[⟨"a", "b"⟩], [[1, 2, 3]]⟩], [], 5⟩)
      = .ok ⟨10, 0, 0, 10, 1, [], 0, 0⟩ := by
    rfl
  have h2 : addSeriesAll (QueryLimiter.mk 10 0 0 10 1 [] 0 0)
      ((QueryStreamMsg.mk [⟨[⟨"a", "b"⟩], [[1, 2, 3]]⟩] [] 5).chunkseries.map
        TimeSeriesChunk.labels)
      = .error .maxSeriesHit := by
    unfold addSeriesAll QueryLimiter.addSeries QueryLimiter.seriesKeysAfterAdd
    simp
  have hc := (h.2.1 ⟨10, 0, 0, 10, 1, [], 0, 0⟩ .maxSeriesHit h1 h2).1
  exact ⟨hc, h.2.2.2.2.2 .maxSeriesHit hc⟩

/-! ## Replica selection (`GetIngestersForQuery`, lines 110-137)

The ring, the tenant-shard-size limit and the shard-key derivation are
external collaborators; they are abstracted as data so that the selector's
priority cascade — the code under verification — is explicit. -/

/-- `labels.MatchType`. -/
inductive MatchType
  | matchEqual
  | matchNotEqual
  | matchRegexp
  | matchNotRegexp
deriving DecidableEq, Repr

/-- `labels.Matcher` (the Go field `Type` is called `mtype` here). -/
structure Matcher where
  mtype : MatchType
  name : String
  value : String
deriving DecidableEq, Repr

/-- A replication set: the replica addresses selected for one query. -/
structure ReplicationSet where
  instances : List String
deriving DecidableEq, Repr

/-- Modelled from the spec: `extract.MetricNameMatcherFromMatchers` — find
a matcher on the metric-name label `__name__`, of any matcher type. -/
def MetricNameMatcherFromMatchers (ms : List Matcher) : Option Matcher :=
  ms.find? fun m => m.name == "__name__"

/-- The ring collaborator interface used by the selector, as data: the full
read-operation replication set (`GetReplicationSetForOperation(ring.Read)`),
the read set of the tenant subring built by
`ShuffleShardWithLookback(userID, shardSize, lookbackPeriod, now)`, and
`Get(shardKey, ring.Read, ...)` for a single shard key. -/
structure IngestersRing where
  readReplicationSet : ReplicationSet
  shuffleShardReadSet : String → Int → Int → ReplicationSet
  getForShardKey : Nat → ReplicationSet

/-- `util.ShardingStrategyShuffle`. -/
def ShardingStrategyShuffle : String := "shuffle"

/-- The distributor configuration consulted by the selector. -/
structure DistributorCfg where
  shardingStrategy : String
  shuffleShardingLookbackPeriod : Int
  shardByAllLabels : Bool

/-- The parts of the distributor used by `GetIngestersForQuery`:
configuration, the per-tenant shard-size limit
(`d.limits.IngestionTenantShardSize`), the ring, and the shard-key
derivation `shardByMetricName(userID, metricName)` (defined elsewhere in
the distributor package; abstracted as a function of tenant and metric
name). -/
structure Distributor where
  cfg : DistributorCfg
  ingestionTenantShardSize : String → Int
  ingestersRing : IngestersRing
  shardByMetricNameFn : String → String → Nat

/-- `GetIngestersForQuery` (lines 110-137): resolve the tenant (failing
when absent), then the shuffle-shard branch, then the metric-name shard
branch when shard-by-all-labels is disabled and a matcher is supplied,
then the full read set. -/
def GetIngestersForQuery (d : Distributor) (ctxTenant : Option String)
    (matchers : List Matcher) : Except Unit ReplicationSet :=
  match ctxTenant with
  | none => .error ()
  | some userID =>
    if d.cfg.shardingStrategy = ShardingStrategyShuffle
        ∧ d.ingestionTenantShardSize userID > 0
        ∧ d.cfg.shuffleShardingLookbackPeriod > 0 then
      .ok (d.ingestersRing.shuffleShardReadSet userID
        (d.ingestionTenantShardSize userID)
        d.cfg.shuffleShardingLookbackPeriod)
    else if d.cfg.shardByAllLabels = false ∧ matchers ≠ [] then
      match MetricNameMatcherFromMatchers matchers with
      | some m =>
        if m.mtype = .matchEqual then
          .ok (d.ingestersRing.getForShardKey
            (d.shardByMetricNameFn userID m.value))
        else
          .ok d.ingestersRing.readReplicationSet
      | none => .ok d.ingestersRing.readReplicationSet
    else
      .ok d.ingestersRing.readReplicationSet

/-- C7: the selector's priority order. (1) With shuffle sharding and
positive tenant shard size and lookback, the tenant subring's read set is
returned. (2) Otherwise, with shard-by-all-labels disabled, at least one
matcher, and an equality matcher found on the metric name, the ring's
replica set for the shard key derived from tenant and metric name is
returned. (3) Otherwise the full ring's read replication set is
returned. -/
theorem GetIngestersForQuery_priority (d : Distributor) (userID : String)
    (matchers : List Matcher) :
    (d.cfg.shardingStrategy = ShardingStrategyShuffle →
      d.ingestionTenantShardSize userID > 0 →
      d.cfg.shuffleShardingLookbackPeriod > 0 →
      GetIngestersForQuery d (some userID) matchers
        = .ok (d.ingestersRing.shuffleShardReadSet userID
            (d.ingestionTenantShardSize userID)
            d.cfg.shuffleShardingLookbackPeriod))
    ∧ (¬(d.cfg.shardingStrategy = ShardingStrategyShuffle
          ∧ d.ingestionTenantShardSize userID > 0
          ∧ d.cfg.shuffleShardingLookbackPeriod > 0) →
        d.cfg.shardByAllLabels = false → matchers ≠ [] →
        ∀ m, MetricNameMatcherFromMatchers matchers = some m →
          m.mtype = .matchEqual →
          GetIngestersForQuery d (some userID) matchers
            = .ok (d.ingestersRing.getForShardKey
                (d.shardByMetricNameFn userID m.value)))
    ∧ (¬(d.cfg.shardingStrategy = ShardingStrategyShuffle
          ∧ d.ingestionTenantShardSize userID > 0
          ∧ d.cfg.shuffleShardingLookbackPeriod > 0) →
        ¬(d.cfg.shardByAllLabels = false ∧ matchers ≠ []
          ∧ ∃ m, MetricNameMatcherFromMatchers matchers = some m
            ∧ m.mtype = .matchEqual) →
        GetIngestersForQuery d (some userID) matchers
          = .ok d.ingestersRing.readReplicationSet) := by
  refine ⟨?_, ?_, ?_⟩
  · intro h1 h2 h3
    simp only [GetIngestersForQuery]
    rw [if_pos ⟨h1, h2, h3⟩]
  · intro hn1 hsba hm m hfind htype
    simp only [GetIngestersForQuery]
    rw [if_neg hn1, if_pos ⟨hsba, hm⟩, hfind]
    show (if m.mtype = MatchType.matchEqual then _ else _) = _
    rw [if_pos htype]
  · intro hn1 hn2
    simp only [GetIngestersForQuery]
    rw [if_neg hn1]
    by_cases hc : d.cfg.shardByAllLabels = false ∧ matchers ≠ []
    · rw [if_pos hc]
      cases hfind : MetricNameMatcherFromMatchers matchers with
      | none => rfl
      | some m =>
        have htype : ¬ m.mtype = .matchEqual := by
          intro he
          exact hn2 ⟨hc.1, hc.2, m, hfind, he⟩
        show (if m.mtype = MatchType.matchEqual then _ else _) = _
        rw [if_neg htype]
    · rw [if_neg hc]

/-- Closed witness for C7 exercising the metric-name shard branch. -/
theorem GetIngestersForQuery_priority_witness :
    GetIngestersForQuery
        ⟨⟨"default", 3600, false⟩, fun _ => 0,
          ⟨⟨["i1", "i2", "i3"]⟩, fun _ _ _ => ⟨["s1"]⟩, fun _ => ⟨["k1"]⟩⟩,
          fun _ _ => 7⟩
        (some "tenant1") [⟨.matchEqual, "__name__", "up"⟩]
      = .ok ⟨["k1"]⟩ :=
  (GetIngestersForQuery_priority
      ⟨⟨"default", 3600, false⟩, fun _ => 0,
        ⟨⟨["i1", "i2", "i3"]⟩, fun _ _ _ => ⟨["s1"]⟩, fun _ => ⟨["k1"]⟩⟩,
        fun _ _ => 7⟩
      "tenant1" [⟨.matchEqual, "__name__", "up"⟩]).2.1
    (by simp [ShardingStrategyShuffle]) rfl (by simp)
    ⟨.matchEqual, "__name__", "up"⟩ (by rfl) rfl

/-! ## Non-streaming merge (`queryIngesters`, lines 185-204)

The matrix merge keys its accumulator by `ss.Metric.Fingerprint()`, the
64-bit FNV-1a hash of the label set computed by `prometheus/common`
(`labelSetToFingerprint`); the hash and `util.MergeSampleSets` live outside
this repository and are modelled from the spec. -/

/-- `model.Metric`: the label set of one matrix series. -/
abbrev Metric := List LabelAdapter

/-- `model.SampleStream`: one series of a matrix. -/
structure SampleStream where
  metric : Metric
  values : List Sample
deriving DecidableEq, Repr

/-- `model.Matrix`. -/
abbrev Matrix := List SampleStream

/-- FNV-1a 64-bit offset basis; also the signature of the empty label
set. -/
def fnvOffset : Nat := 14695981039346656037

/-- FNV-1a 64-bit prime. -/
def fnvPrime : Nat := 1099511628211

/-- One FNV-1a step over one byte, with 64-bit wraparound. -/
def hashAddByte (h : Nat) (b : Nat) : Nat :=
  ((h ^^^ b) * fnvPrime) % 2 ^ 64

/-- FNV-1a over a string's UTF-8 bytes. -/
def hashAddString (h : Nat) (s : String) : Nat :=
  s.toUTF8.toList.foldl (fun h b => hashAddByte h b.toNat) h

/-- Insertion into a name-sorted label list. -/
def insertLabelByName (l : LabelAdapter) :
    List LabelAdapter → List LabelAdapter
  | [] => [l]
  | t :: rest =>
    if l.name ≤ t.name then l :: t :: rest else t :: insertLabelByName l rest

/-- `labelSetToFingerprint` iterates the labels in name-sorted order. -/
def sortLabelsByName : List LabelAdapter → List LabelAdapter
  | [] => []
  | l :: rest => insertLabelByName l (sortLabelsByName rest)

/-- Modelled from the spec: the numeric series fingerprint of the
non-streaming path (`model.Metric.Fingerprint`, prometheus/common
`labelSetToFingerprint`): FNV-1a/64 over the name-sorted label pairs with
a separator byte (255) after each name and each value; the empty label set
hashes to the offset basis. -/
def Fingerprint (m : Metric) : Nat :=
  if m = [] then fnvOffset
  else
    (sortLabelsByName m).foldl
      (fun h l =>
        hashAddByte
          (hashAddString (hashAddByte (hashAddString h l.name) 255) l.value)
          255)
      fnvOffset

theorem hashAddByte_lt (h b : Nat) : hashAddByte h b < 2 ^ 64 := by
  unfold hashAddByte
  exact Nat.mod_lt _ (by norm_num)

theorem foldl_fingerprint_step_lt (ls : List LabelAdapter) (h0 : Nat)
    (h : ls ≠ []) :
    ls.foldl
      (fun h l =>
        hashAddByte
          (hashAddString (hashAddByte (hashAddString h l.name) 255) l.value)
          255)
      h0 < 2 ^ 64 := by
  induction ls generalizing h0 with
  | nil => exact absurd rfl h
  | cons l rest ih =>
    rw [List.foldl_cons]
    cases rest with
    | nil => exact hashAddByte_lt _ _
    | cons l2 rest2 => exact ih _ (by simp)

theorem insertLabelByName_ne_nil (l : LabelAdapter)
    (ls : List LabelAdapter) : insertLabelByName l ls ≠ [] := by
  cases ls with
  | nil => simp [insertLabelByName]
  | cons t rest =>
    unfold insertLabelByName
    split <;> simp

theorem Fingerprint_lt (m : Metric) : Fingerprint m < 2 ^ 64 := by
  unfold Fingerprint
  split
  · norm_num [fnvOffset]
  · rename_i hne
    apply foldl_fingerprint_step_lt
    cases m with
    | nil => exact absurd rfl hne
    | cons l rest =>
      show insertLabelByName l (sortLabelsByName rest) ≠ []
      exact insertLabelByName_ne_nil l (sortLabelsByName rest)

/-- Modelled from the spec: `util.MergeSampleSets` — the Sample Merger of
section 4.3 applied to the matrix sample pairs (sorted merge, one sample
kept on equal timestamps). -/
def MergeSampleSets (a b : List Sample) : List Sample :=
  mergeByTimestampMs Sample.timestampMs a b

/-- One step of the merge loop of `queryIngesters` (lines 186-197): look
up the accumulator entry by the series fingerprint; on a miss create the
entry carrying the series' metric with nil values, then merge the incoming
values into the entry's values. -/
def foldMatrixSeries (m : List (Nat × SampleStream)) (ss : SampleStream) :
    List (Nat × SampleStream) :=
  match assocGet (Fingerprint ss.metric) m with
  | none =>
    assocSet (Fingerprint ss.metric)
      ⟨ss.metric, MergeSampleSets [] ss.values⟩ m
  | some mss =>
    assocSet (Fingerprint ss.metric)
      { mss with values := MergeSampleSets mss.values ss.values } m

/-- The full merge of `queryIngesters` (lines 185-198) over the replica
results. -/
def foldMatrices (results : List Matrix) : List (Nat × SampleStream) :=
  results.foldl (fun m mat => mat.foldl foldMatrixSeries m) []

theorem mem_keys_foldMatrixSeries (m : List (Nat × SampleStream))
    (ss : SampleStream) (k : Nat) :
    k ∈ (foldMatrixSeries m ss).map Prod.fst ↔
      k ∈ m.map Prod.fst ∨ k = Fingerprint ss.metric := by
  unfold foldMatrixSeries
  cases assocGet (Fingerprint ss.metric) m with
  | none => exact mem_keys_assocSet _ _ _ _
  | some mss => exact mem_keys_assocSet _ _ _ _

theorem keys_nodup_foldMatrixSeries (m : List (Nat × SampleStream))
    (ss : SampleStream) (h : (m.map Prod.fst).Nodup) :
    ((foldMatrixSeries m ss).map Prod.fst).Nodup := by
  unfold foldMatrixSeries
  cases assocGet (Fingerprint ss.metric) m with
  | none => exact assocSet_keys_nodup _ _ _ h
  | some mss => exact assocSet_keys_nodup _ _ _ h

theorem mem_keys_foldMatrix (mat : Matrix) (m : List (Nat × SampleStream))
    (k : Nat) :
    k ∈ (mat.foldl foldMatrixSeries m).map Prod.fst ↔
      k ∈ m.map Prod.fst ∨ ∃ ss ∈ mat, k = Fingerprint ss.metric := by
  induction mat generalizing m with
  | nil => simp
  | cons ss rest ih =>
    rw [List.foldl_cons, ih, mem_keys_foldMatrixSeries]
    constructor
    · rintro ((hk | hk) | ⟨ss2, hss2, hk⟩)
      · exact Or.inl hk
      · exact Or.inr ⟨ss, List.mem_cons_self ss rest, hk⟩
      · exact Or.inr ⟨ss2, List.mem_cons_of_mem ss hss2, hk⟩
    · rintro (hk | ⟨ss2, hss2, hk⟩)
      · exact Or.inl (Or.inl hk)
      · rcases List.mem_cons.mp hss2 with rfl | hss2
        · exact Or.inl (Or.inr hk)
        · exact Or.inr ⟨ss2, hss2, hk⟩

theorem keys_nodup_foldMatrix (mat : Matrix) (m : List (Nat × SampleStream))
    (h : (m.map Prod.fst).Nodup) :
    ((mat.foldl foldMatrixSeries m).map Prod.fst).Nodup := by
  induction mat generalizing m with
  | nil => exact h
  | cons ss rest ih =>
    rw [List.foldl_cons]
    exact ih _ (keys_nodup_foldMatrixSeries m ss h)

/-- C5 amended: the accumulator of `queryIngesters` is keyed by the 64-bit
label-set fingerprint: it holds exactly one entry per distinct fingerprint
occurring among the input series. Equal label sets are always folded
together (the fingerprint is a function of the label set), but identity is
hash equality, not label-set equality: distinct label sets with colliding
fingerprints — which exist — are folded into the same entry. -/
theorem queryIngesters_fold_keyed_by_fingerprint (results : List Matrix) :
    ((foldMatrices results).map Prod.fst).Nodup
    ∧ (∀ k, k ∈ (foldMatrices results).map Prod.fst ↔
        ∃ mat ∈ results, ∃ ss ∈ mat, k = Fingerprint ss.metric) := by
  unfold foldMatrices
  constructor
  · have haux : ∀ (rs : List Matrix) (m : List (Nat × SampleStream)),
        (m.map Prod.fst).Nodup →
        ((rs.foldl (fun m mat => mat.foldl foldMatrixSeries m) m).map
          Prod.fst).Nodup := by
      intro rs
      induction rs with
      | nil => exact fun m h => h
      | cons mat rest ih =>
        intro m h
        rw [List.foldl_cons]
        exact ih _ (keys_nodup_foldMatrix mat m h)
    exact haux results [] (by simp)
  · have haux : ∀ (rs : List Matrix) (m : List (Nat × SampleStream)) (k : Nat),
        k ∈ ((rs.foldl (fun m mat => mat.foldl foldMatrixSeries m) m).map
          Prod.fst) ↔
        k ∈ m.map Prod.fst ∨ ∃ mat ∈ rs, ∃ ss ∈ mat, k = Fingerprint ss.metric := by
      intro rs
      induction rs with
      | nil => simp
      | cons mat rest ih =>
        intro m k
        rw [List.foldl_cons, ih, mem_keys_foldMatrix]
        constructor
        · rintro ((hk | ⟨ss, hss, hk⟩) | ⟨mat2, hmat2, ss, hss, hk⟩)
          · exact Or.inl hk
          · exact Or.inr ⟨mat, List.mem_cons_self mat rest, ss, hss, hk⟩
          · exact Or.inr ⟨mat2, List.mem_cons_of_mem mat hmat2, ss, hss, hk⟩
        · rintro (hk | ⟨mat2, hmat2, ss, hss, hk⟩)
          · exact Or.inl (Or.inl hk)
          · rcases List.mem_cons.mp hmat2 with rfl | hmat2
            · exact Or.inl (Or.inr ⟨ss, hss, hk⟩)
            · exact Or.inr ⟨mat2, hmat2, ss, hss, hk⟩
    intro k
    rw [haux results [] k]
    simp

theorem natString_injective :
    Function.Injective fun n => String.mk (List.replicate n 'a') := by
  intro a b h
  have h2 := congrArg (fun s => s.data.length) h
  simpa using h2

/-- C5 counterexample: by pigeonhole, two distinct label sets share a
64-bit fingerprint, and `queryIngesters` folds their series into a single
accumulator entry — identity keys collide across distinct label sets, so
merging is by hash equality, not full label-set equality. -/
theorem queryIngesters_merges_distinct_labelsets :
    ∃ m1 m2 : Metric, m1 ≠ m2 ∧
      (foldMatrices [[⟨m1, []⟩], [⟨m2, []⟩]]).length = 1 := by
  obtain ⟨n1, n2, hne, heq⟩ := Finite.exists_ne_map_eq_of_infinite
    fun n : Nat =>
      (⟨Fingerprint [⟨"l", String.mk (List.replicate n 'a')⟩],
        Fingerprint_lt _⟩ : Fin (2 ^ 64))
  have hfp : Fingerprint [⟨"l", String.mk (List.replicate n1 'a')⟩]
      = Fingerprint [⟨"l", String.mk (List.replicate n2 'a')⟩] :=
    congrArg Fin.val heq
  refine ⟨[⟨"l", String.mk (List.replicate n1 'a')⟩],
    [⟨"l", String.mk (List.replicate n2 'a')⟩], ?_, ?_⟩
  · intro hc
    apply hne
    apply natString_injective
    have h1 : (⟨"l", String.mk (List.replicate n1 'a')⟩ : LabelAdapter)
        = ⟨"l", String.mk (List.replicate n2 'a')⟩ := by
      injection hc
    injection h1
  · unfold foldMatrices
    rw [List.foldl_cons, List.foldl_cons, List.foldl_nil,
      List.foldl_cons, List.foldl_nil, List.foldl_cons, List.foldl_nil]
    unfold foldMatrixSeries
    simp only [assocGet, assocSet, hfp]
    simp [assocGet, assocSet]

end CortexDistributor
